import Mathlib

/-!
Verification development for the hvisor-pt page-table engine.

The repository models address translation for a virtualized memory subsystem:
a hierarchical page-table tree (`src/imp/tree/node.rs`, `src/imp/tree.rs`), an
executable page table over raw page-table memory (`src/imp/paging/pt.rs`), a
low-level hardware-facing state machine, and a high-level flat specification
(`src/spec/high_level.rs`).

This file gives a shallow embedding of those components and proves (or
refutes) the frozen claims about them.  Definitions are translated from the
Rust/Verus sources; modules of the repository that are not present under
`src/` (the architecture descriptor `PTArch`, the address module, the
low-level state, the page-table memory store and the entry codec) are
modelled from the specification document and are marked as such in their
doc comments.
-/

set_option linter.unusedVariables false

/-! ## Architecture descriptor

Modelled from the spec: the module `spec::arch` / `common::arch` (struct
`PTArch`) is not under `src/`.  Per spec section 3 and 6, an architecture is an
ordered sequence of levels, each with an entry count (fan-out) and a frame
size; it exposes `levelCount`, `entryCount(level)`, `frameSize(level)`,
`levelOfFrameSize(size)` and `pathIndexOf(vaddr, level)`.  Hierarchical
consistency (a level's frame size is the next level's frame size times the
next level's fan-out) is what the in-source path-ordering proofs rely on. -/

/-- One level of the architecture: fan-out and frame size (in bytes). -/
structure ArchLevel where
  entry_count : Nat
  frame_size : Nat
deriving DecidableEq

/-- Modelled from the spec: architecture descriptor (`PTArch`). -/
structure PTArch where
  levels : List ArchLevel
deriving DecidableEq

/-- Number of levels of the architecture. -/
def PTArch.level_count (a : PTArch) : Nat := a.levels.length

/-- Entry count (fan-out) of the given level. -/
def PTArch.entry_count (a : PTArch) (l : Nat) : Nat :=
  (a.levels.getD l ⟨0, 0⟩).entry_count

/-- Frame size (in bytes) of a leaf mapping at the given level. -/
def PTArch.frame_size (a : PTArch) (l : Nat) : Nat :=
  (a.levels.getD l ⟨0, 0⟩).frame_size

/-- Modelled from the spec: validity of an architecture descriptor.  Level
count is at least 1, fan-outs and frame sizes are positive, and each level's
frame size is the next level's frame size times the next level's fan-out. -/
def PTArch.valid (a : PTArch) : Prop :=
  0 < a.level_count ∧
  (∀ l, l < a.level_count → 0 < a.entry_count l) ∧
  (∀ l, l < a.level_count → 0 < a.frame_size l) ∧
  (∀ l, l < a.level_count → l + 1 < a.level_count →
    a.frame_size l = a.frame_size (l + 1) * a.entry_count (l + 1))

instance (a : PTArch) : Decidable a.valid := by
  unfold PTArch.valid; infer_instance

/-- Modelled from the spec: `pathIndexOf(vaddr, level)` extracts the per-level
index from the address: the address divided by the level's frame size, modulo
the level's fan-out. -/
def PTArch.pte_index_of_va (a : PTArch) (vaddr l : Nat) : Nat :=
  vaddr / a.frame_size l % a.entry_count l

/-- Modelled from the spec: the virtual base reconstructed for a mapping found
at `level`: the address rounded down to that level's frame size. -/
def PTArch.vbase_of_va (a : PTArch) (vaddr l : Nat) : Nat :=
  vaddr / a.frame_size l * a.frame_size l

/-- If `size` is one of the architecture's supported frame sizes. -/
def PTArch.is_valid_frame_size (a : PTArch) (size : Nat) : Prop :=
  ∃ l, l < a.level_count ∧ a.frame_size l = size

instance (a : PTArch) (size : Nat) : Decidable (a.is_valid_frame_size size) := by
  unfold PTArch.is_valid_frame_size; infer_instance

/-- Helper for `level_of_frame_size`: index of the first level whose frame
size equals `size`. -/
def levelOfSizeAux (size : Nat) : List ArchLevel → Nat
  | [] => 0
  | lv :: rest => if lv.frame_size = size then 0 else levelOfSizeAux size rest + 1

/-- Modelled from the spec: `levelOfFrameSize(size)` returns the level whose
frame size equals `size`. -/
def PTArch.level_of_frame_size (a : PTArch) (size : Nat) : Nat :=
  levelOfSizeAux size a.levels


/-! ## Addresses, overlap, frames

From `src/src/spec/mod.rs` (addresses as naturals, `aligned`, `overlap`) and
`src/src/spec/frame.rs` (frames).  A frame's `size` field is represented by
its byte count (the source's `FrameSize` enum, via `as_nat`). -/

/-- From `spec/mod.rs`: if region `(base1, size1)` and region
`(base2, size2)` overlap. -/
def overlap (base1 size1 base2 size2 : Nat) : Bool :=
  if base1 ≤ base2 then decide (base2 < base1 + size1)
  else decide (base1 < base2 + size2)

/-- From `spec/mod.rs`: if `addr` is aligned to `size` bytes. -/
def aligned (addr size : Nat) : Prop := addr % size = 0

instance (addr size : Nat) : Decidable (aligned addr size) := by
  unfold aligned; infer_instance

/-- From `spec/frame.rs`: frame attributes. -/
structure FrameAttr where
  readable : Bool
  writable : Bool
  executable : Bool
  user_accessible : Bool
deriving DecidableEq

/-- From `spec/frame.rs`: a physical memory frame.  `size` is the byte count
of the source's `FrameSize`. -/
structure Frame where
  base : Nat
  size : Nat
  attr : FrameAttr
deriving DecidableEq

/-! ## Paths

From `src/src/imp/tree/path.rs` (`PTTreePath`): a path is a sequence of
per-level indices. -/

namespace PTTreePath

/-- From `path.rs` `PTTreePath::valid`: non-empty, fits under the level count,
and each index is within its level's entry count. -/
def valid (p : List Nat) (arch : PTArch) (start_level : Nat) : Prop :=
  0 < p.length ∧ p.length + start_level ≤ arch.level_count ∧
  ∀ i, i < p.length → p.getD i 0 < arch.entry_count (i + start_level)

instance (p : List Nat) (arch : PTArch) (s : Nat) : Decidable (valid p arch s) := by
  unfold valid; infer_instance

/-- From `path.rs` `PTTreePath::from_vaddr`: the path of length `level + 1`
whose `i`-th index is `pte_index_of_va(vaddr, i)`. -/
def from_vaddr (vaddr : Nat) (arch : PTArch) (level : Nat) : List Nat :=
  (List.range (level + 1)).map (fun i => arch.pte_index_of_va vaddr i)

/-- Helper for `to_vaddr`: sums `index * frame_size(level)` over the path,
starting at the given level. -/
def toVaddrFrom (arch : PTArch) : Nat → List Nat → Nat
  | _, [] => 0
  | lvl, idx :: rest => idx * arch.frame_size lvl + toVaddrFrom arch (lvl + 1) rest

/-- From `path.rs` `PTTreePath::to_vaddr`: the sum of each index times the
frame size of its level (the source folds the sequence of such parts). -/
def to_vaddr (p : List Nat) (arch : PTArch) : Nat := toVaddrFrom arch 0 p

end PTTreePath

/-! ## Page-table tree nodes

From `src/src/imp/tree/node.rs` (`PTTreeNode`, `NodeEntry`) and
`src/src/spec/page_table.rs` (`PTConstants`; that module is not under `src/`,
its three fields `arch`, `pmem_lb`, `pmem_ub` appear verbatim in `node.rs`
and in the older draft's `PTConfig` in `tree.rs`). -/

/-- Page table config constants (`PTConstants` in `node.rs`, `PTConfig` in
`tree.rs`; the two drafts have identical fields). -/
structure PTConstants where
  arch : PTArch
  pmem_lb : Nat
  pmem_ub : Nat
deriving DecidableEq

mutual
/-- From `node.rs`: a node of the page table tree. -/
inductive PTTreeNode where
  | mk (constants : PTConstants) (level : Nat) (entries : List NodeEntry)

/-- From `node.rs`: an entry of a node: a sub-node, a mapped frame, or empty. -/
inductive NodeEntry where
  | node (n : PTTreeNode)
  | frame (f : Frame)
  | empty
end

def PTTreeNode.constants : PTTreeNode → PTConstants
  | .mk c _ _ => c

def PTTreeNode.level : PTTreeNode → Nat
  | .mk _ l _ => l

def PTTreeNode.entries : PTTreeNode → List NodeEntry
  | .mk _ _ e => e

/-- From `node.rs` `PTTreeNode::new`: an empty node. -/
def PTTreeNode.new (config : PTConstants) (level : Nat) : PTTreeNode :=
  .mk config level (List.replicate (config.arch.entry_count level) .empty)

/-- From `node.rs` `PTTreeNode::update`: update the entry at `index`. -/
def PTTreeNode.update (n : PTTreeNode) (index : Nat) (entry : NodeEntry) : PTTreeNode :=
  .mk n.constants n.level (n.entries.set index entry)

/-- From `node.rs` `PTTreeNode::is_entry_valid`: validity of an entry at a
level under the configuration. -/
def PTTreeNode.is_entry_valid (entry : NodeEntry) (level : Nat) (constants : PTConstants) : Bool :=
  match entry with
  | .node n =>
    if level < constants.arch.level_count - 1 then
      decide (n.level = level + 1) && decide (n.constants = constants)
    else false
  | .frame frame =>
    decide (frame.size = constants.arch.frame_size level) &&
    decide (frame.base % frame.size = 0) &&
    decide (constants.pmem_lb ≤ frame.base) &&
    decide (frame.base + frame.size ≤ constants.pmem_ub)
  | .empty => true

mutual
/-- From `node.rs` `PTTreeNode::invariants`: the recursive structural
invariant of a subtree. -/
def PTTreeNode.invariants : PTTreeNode → Bool
  | .mk c lvl entries =>
    decide c.arch.valid &&
    decide (lvl < c.arch.level_count) &&
    decide (entries.length = c.arch.entry_count lvl) &&
    entriesInv c lvl entries

/-- All entries of a node satisfy `is_entry_valid`, and sub-nodes recursively
satisfy `invariants` (the body of the `forall` in the source). -/
def entriesInv (c : PTConstants) (lvl : Nat) : List NodeEntry → Bool
  | [] => true
  | e :: rest => PTTreeNode.is_entry_valid e lvl c && entryChildInv e && entriesInv c lvl rest

/-- Sub-node entries recursively satisfy `invariants`. -/
def entryChildInv : NodeEntry → Bool
  | .node child => child.invariants
  | _ => true
end

/-- From `node.rs` `PTTreeNode::recursive_visit` (the older draft in
`tree.rs` additionally defines the empty-path case as the empty sequence;
on non-empty paths the two drafts coincide). -/
def PTTreeNode.recursive_visit : PTTreeNode → List Nat → List NodeEntry
  | _, [] => []
  | n, [idx] => [n.entries.getD idx .empty]
  | n, idx :: remain =>
    match n.entries.getD idx .empty with
    | .node child => NodeEntry.node child :: child.recursive_visit remain
    | e => [e]

/-- Result type of the mutating operations (`PagingResult` =
`Result<(), ()>`). -/
inductive PagingResult where
  | Ok
  | Err
deriving DecidableEq

/-- From `node.rs` `PTTreeNode::recursive_insert`: insert a frame at `path`,
creating intermediate nodes; fail without modification if the target slot is
not `Empty` or a frame blocks the descent.  (The empty-path case is outside
the source's `recommends` and is totalized as a failure.) -/
def PTTreeNode.recursive_insert : PTTreeNode → List Nat → Frame → PTTreeNode × PagingResult
  | n, [], _ => (n, .Err)
  | n, [idx], frame =>
    match n.entries.getD idx .empty with
    | .empty => (n.update idx (.frame frame), .Ok)
    | _ => (n, .Err)
  | n, idx :: remain, frame =>
    match n.entries.getD idx .empty with
    | .node child =>
      let r := child.recursive_insert remain frame
      (n.update idx (.node r.1), r.2)
    | .empty =>
      let r := (PTTreeNode.new n.constants (n.level + 1)).recursive_insert remain frame
      (n.update idx (.node r.1), r.2)
    | _ => (n, .Err)

/-- From `node.rs` `PTTreeNode::recursive_remove`: remove the frame at
`path`; a frame reached before the path is exhausted is cleared only when the
remaining indices are all zero. -/
def PTTreeNode.recursive_remove : PTTreeNode → List Nat → PTTreeNode × PagingResult
  | n, [] => (n, .Err)
  | n, [idx] =>
    match n.entries.getD idx .empty with
    | .frame _ => (n.update idx .empty, .Ok)
    | _ => (n, .Err)
  | n, idx :: remain =>
    match n.entries.getD idx .empty with
    | .node child =>
      let r := child.recursive_remove remain
      (n.update idx (.node r.1), r.2)
    | .frame _ =>
      if remain.all (· == 0) then (n.update idx .empty, .Ok) else (n, .Err)
    | .empty => (n, .Err)

/-- If the last visited entry is a frame. -/
def lastIsFrame (l : List NodeEntry) : Bool :=
  match l.getLast? with
  | some (.frame _) => true
  | _ => false

/-- From `node.rs` `PTTreeNode::is_frame_path`: the visit along `path`
terminates exactly at a frame. -/
def PTTreeNode.is_frame_path (n : PTTreeNode) (p : List Nat) : Bool :=
  decide (PTTreePath.valid p n.constants.arch n.level) &&
  lastIsFrame (n.recursive_visit p) &&
  decide ((n.recursive_visit p).length = p.length)

/-- From `node.rs` `PTTreeNode::path_mappings`: the partial map collecting
every path that terminates at a frame (the source's `Map<PTTreePath, Frame>`
is represented as an `Option`-valued function; `contains_pair (p, f)`
corresponds to `path_mappings n p = some f`). -/
def PTTreeNode.path_mappings (n : PTTreeNode) (p : List Nat) : Option Frame :=
  if n.is_frame_path p then
    match (n.recursive_visit p).getLast? with
    | some (.frame f) => some f
    | _ => none
  else none

/-! ## Tree model (`src/src/imp/tree.rs`)

The older draft in `tree.rs` defines the same node structure (config field
named `PTConfig`, identical to `PTConstants`) with `recursive_insert` taking
an arbitrary entry and returning only the new tree, `recursive_remove`
returning only the new tree, and the `PTTreeModel` wrapper with `map`,
`unmap` and `query`.  The draft's `recursive_visit` coincides with
`PTTreeNode.recursive_visit` above (which also covers the empty path as the
draft does). -/

namespace TreeModel

/-- From `tree.rs` `PTTreeNode::recursive_insert`: insert `entry` at `path`,
creating intermediate nodes; the tree is unchanged if the slot is occupied. -/
def recursive_insert : PTTreeNode → List Nat → NodeEntry → PTTreeNode
  | n, [], _ => n
  | n, [idx], entry =>
    match n.entries.getD idx .empty with
    | .empty => n.update idx entry
    | _ => n
  | n, idx :: remain, entry =>
    match n.entries.getD idx .empty with
    | .node child => n.update idx (.node (recursive_insert child remain entry))
    | .empty =>
      n.update idx (.node (recursive_insert (PTTreeNode.new n.constants (n.level + 1)) remain entry))
    | _ => n

/-- From `tree.rs` `PTTreeNode::recursive_remove`: clear the entry at `path`
(unconditionally at the final step); the tree is unchanged if an intermediate
entry is not a sub-node. -/
def recursive_remove : PTTreeNode → List Nat → PTTreeNode
  | n, [] => n
  | n, [idx] => n.update idx .empty
  | n, idx :: remain =>
    match n.entries.getD idx .empty with
    | .node child => n.update idx (.node (recursive_remove child remain))
    | _ => n

end TreeModel

/-- From `tree.rs`: the page table tree model (a wrapped root node). -/
structure PTTreeModel where
  root : PTTreeNode

namespace PTTreeModel

/-- From `tree.rs` `PTTreeModel::arch`. -/
def arch (m : PTTreeModel) : PTArch := m.root.constants.arch

/-- From `tree.rs` `PTTreeModel::pmem_lb`. -/
def pmem_lb (m : PTTreeModel) : Nat := m.root.constants.pmem_lb

/-- From `tree.rs` `PTTreeModel::pmem_ub`. -/
def pmem_ub (m : PTTreeModel) : Nat := m.root.constants.pmem_ub

/-- From `tree.rs` `PTTreeModel::empty`. -/
def empty (config : PTConstants) : PTTreeModel := ⟨PTTreeNode.new config 0⟩

/-- From `tree.rs` `PTTreeModel::invariants`: the root is at level 0 and
satisfies the node invariants. -/
def invariants (m : PTTreeModel) : Prop :=
  m.root.level = 0 ∧ m.root.invariants = true

instance (m : PTTreeModel) : Decidable m.invariants := by
  unfold invariants; infer_instance

/-- From `tree.rs` `PTTreeModel::map`: insert `frame` at the path derived
from `vbase` and the frame-size level, after checking that the visit reaches
`Empty` (`Result<Self, ()>` is represented as `Option PTTreeModel`). -/
def map (m : PTTreeModel) (vbase : Nat) (frame : Frame) : Option PTTreeModel :=
  let path := PTTreePath.from_vaddr vbase m.arch (m.arch.level_of_frame_size frame.size)
  let visited := m.root.recursive_visit path
  match visited.getLast? with
  | some .empty => some ⟨TreeModel.recursive_insert m.root path (.frame frame)⟩
  | _ => none

/-- From `tree.rs` `PTTreeModel::query`: walk the full-depth path; on
reaching a frame return the reconstructed virtual base and the frame. -/
def query (m : PTTreeModel) (vaddr : Nat) : Option (Nat × Frame) :=
  let path := PTTreePath.from_vaddr vaddr m.arch (m.arch.level_count - 1)
  let visited := m.root.recursive_visit path
  match visited.getLast? with
  | some (.frame frame) => some (m.arch.vbase_of_va vaddr (visited.length - 1), frame)
  | _ => none

/-- From `tree.rs` `PTTreeModel::unmap`: query first; on success remove at
the path derived from the found frame's size level. -/
def unmap (m : PTTreeModel) (vbase : Nat) : Option PTTreeModel :=
  match m.query vbase with
  | some (_, frame) =>
    let path := PTTreePath.from_vaddr vbase m.arch (m.arch.level_of_frame_size frame.size)
    some ⟨TreeModel.recursive_remove m.root path⟩
  | none => none

end PTTreeModel

/-! ## Executable page table (`src/src/imp/paging/pt.rs`)

The spec-mode `PageTable` iterates raw page-table memory through a pluggable
entry codec.  The page-table memory module (`spec::memory`) and the codec
(`GenericPTE`) are not under `src/`; they are modelled from spec section 6:
the store is addressable by `(base, index)`, `allocateTable(level)` returns a
fresh table base, and the codec round-trips decoded fields, with the empty
word decoding to an invalid entry.  A stored word is therefore represented
directly by its decoded fields. -/

/-- Modelled from the spec: a decoded page-table entry (the codec's
`{valid, isLeafAtThisLevel (huge), physicalAddress, attributes}`;
`from_u64` / `to_u64` are the identity on this representation). -/
structure PTE where
  valid : Bool
  huge : Bool
  addr : Nat
  attr : FrameAttr
deriving DecidableEq

/-- Modelled from the spec: the empty word decodes to an invalid entry. -/
def PTE.empty : PTE := ⟨false, false, 0, ⟨false, false, false, false⟩⟩

/-- Modelled from the spec: encode an address, attributes and leaf flag. -/
def PTE.new (addr : Nat) (attr : FrameAttr) (huge : Bool) : PTE :=
  ⟨true, huge, addr, attr⟩

/-- Modelled from the spec: one allocated table (its level and words). -/
structure PTMTable where
  level : Nat
  words : List PTE
deriving DecidableEq

/-- Modelled from the spec: page-table memory: a collection of tables
addressed by their base, plus the root base and an allocation cursor. -/
structure PageTableMem where
  arch : PTArch
  root_base : Nat
  tables : List (Nat × PTMTable)
  next : Nat
deriving DecidableEq

/-- Look up the table at `base`. -/
def PageTableMem.table? (m : PageTableMem) (base : Nat) : Option PTMTable :=
  (m.tables.find? (fun t => t.1 == base)).map (·.2)

/-- Modelled from the spec: `read(base, index)`. -/
def PageTableMem.read (m : PageTableMem) (base idx : Nat) : PTE :=
  match m.table? base with
  | some t => t.words.getD idx PTE.empty
  | none => PTE.empty

/-- Modelled from the spec: `write(base, index, word)`. -/
def PageTableMem.write (m : PageTableMem) (base idx : Nat) (pte : PTE) : PageTableMem :=
  { m with
    tables := m.tables.map
      (fun t => if t.1 = base then (t.1, { t.2 with words := t.2.words.set idx pte }) else t) }

/-- Modelled from the spec: `allocateTable(level)` returns a fresh base
holding an empty table of that level's entry count. -/
def PageTableMem.alloc_table (m : PageTableMem) (level : Nat) : PageTableMem × Nat :=
  ({ m with
      tables := (m.next, ⟨level, List.replicate (m.arch.entry_count level) PTE.empty⟩) :: m.tables,
      next := m.next + 1 },
    m.next)

/-- From `pt.rs`: the spec-mode page table (memory plus constants). -/
structure PageTable where
  pt_mem : PageTableMem
  constants : PTConstants
deriving DecidableEq

/-- From `pt.rs` `PageTable::insert` (lines 97-151): recursive
specification-level insertion from `base` at `level` down to `target_level`.
The branch structure is transcribed verbatim; note that at the target level
the source writes `new_pte` when the present entry is *valid* and fails when
it is invalid. -/
def PageTable.insert (pt : PageTable) (vbase base level target_level : Nat) (new_pte : PTE) :
    PageTable × PagingResult :=
  let idx := pt.constants.arch.pte_index_of_va vbase level
  let pte := pt.pt_mem.read base idx
  if level ≥ target_level then
    if pte.valid then
      ({ pt with pt_mem := pt.pt_mem.write base idx new_pte }, .Ok)
    else
      (pt, .Err)
  else
    if pte.valid then
      if pte.huge then (pt, .Err)
      else pt.insert vbase pte.addr (level + 1) target_level new_pte
    else
      let r := pt.pt_mem.alloc_table (level + 1)
      let mem3 := r.1.write base idx (PTE.new r.2 ⟨false, false, false, false⟩ false)
      PageTable.insert ⟨mem3, pt.constants⟩ vbase r.2 (level + 1) target_level new_pte
termination_by target_level - level
decreasing_by all_goals omega

/-! ## Low-level state

Modelled from the spec: the module `spec::low_level` (`LowLevelState`) is not
under `src/`; only its refinement proofs (`src/src/imp/ll_refine_hl.rs`) are.
Per spec sections 3 and 4.4 the state holds the interpreted page table and
the translation cache (both finite maps from virtual base to frame, here
association lists with distinct keys) and physical memory, and steps by the
five operations `read`, `write`, `map`, `unmap`, `query` plus the internal
`cacheEvict`: `read`/`write` resolve through the cache if it holds a covering
entry, else through the page table; `map`/`unmap` operate on the page table
only, `map` failing on an already-occupied region and `unmap` removing the
mapping and evicting any cache entry under it; `query` resolves through the
page table; `cacheEvict` drops a cache entry (pure housekeeping). -/

structure LowLevelState where
  pt : List (Nat × Frame)
  tlb : List (Nat × Frame)
  mem : List Nat

namespace LowLevelState

/-- A mapping `(base, frame)` covers `vaddr`. -/
def covers (vaddr : Nat) (bf : Nat × Frame) : Bool :=
  decide (bf.1 ≤ vaddr) && decide (vaddr < bf.1 + bf.2.size)

/-- Resolve `vaddr` through the translation cache. -/
def resolve_tlb (s : LowLevelState) (vaddr : Nat) : Option (Nat × Frame) :=
  s.tlb.find? (covers vaddr)

/-- Resolve `vaddr` through the page table. -/
def resolve_pt (s : LowLevelState) (vaddr : Nat) : Option (Nat × Frame) :=
  s.pt.find? (covers vaddr)

/-- Read through a given resolution: check attributes, then return the word
at the translated physical word index (`spec/mod.rs` word size is 8). -/
def read_with (s : LowLevelState) (r : Option (Nat × Frame)) (vaddr : Nat) : Option Nat :=
  match r with
  | some (b, f) =>
    if f.attr.readable && f.attr.user_accessible then
      some (s.mem.getD ((vaddr - b + f.base) / 8) 0)
    else none
  | none => none

/-- Write through a given resolution: check attributes, then update the word
at the translated physical word index. -/
def write_with (s : LowLevelState) (r : Option (Nat × Frame)) (vaddr value : Nat) :
    Option (List Nat) :=
  match r with
  | some (b, f) =>
    if f.attr.writable && f.attr.user_accessible then
      some (s.mem.set ((vaddr - b + f.base) / 8) value)
    else none
  | none => none

/-- The translation cache is a submap of the interpreted page table
(`tlb_is_submap_of_pt` in `ll_refine_hl.rs` / `spec/mem.rs`). -/
def tlb_is_submap_of_pt (s : LowLevelState) : Prop :=
  ∀ bf ∈ s.tlb, bf ∈ s.pt

/-- Page-table mappings do not overlap in virtual memory
(`mappings_nonoverlap_in_vmem` in `ll_refine_hl.rs`). -/
def mappings_nonoverlap_in_vmem (s : LowLevelState) : Prop :=
  ∀ bf1 ∈ s.pt, ∀ bf2 ∈ s.pt,
    bf1.1 = bf2.1 ∨ overlap bf1.1 bf1.2.size bf2.1 bf2.2.size = false

/-- The page table is a finite map: its keys are distinct. -/
def pt_functional (s : LowLevelState) : Prop :=
  s.pt.Pairwise (fun x y => x.1 ≠ y.1)

/-- The low-level invariants used by the refinement proofs. -/
def invariants (s : LowLevelState) : Prop :=
  s.tlb_is_submap_of_pt ∧ s.mappings_nonoverlap_in_vmem ∧ s.pt_functional

instance (s : LowLevelState) : Decidable s.invariants := by
  unfold invariants tlb_is_submap_of_pt mappings_nonoverlap_in_vmem pt_functional
  infer_instance

/-- Modelled from the spec (section 4.4): resolve `vaddr` using the cache if
it holds a covering entry, else the page table. -/
def resolve (s : LowLevelState) (vaddr : Nat) : Option (Nat × Frame) :=
  match s.resolve_tlb vaddr with
  | some r => some r
  | none => s.resolve_pt vaddr

/-- Modelled from the spec (section 4.4): `read(vaddr)` resolves through the
cache, else the page table, and returns the word there; the state is
unchanged. -/
def read (s : LowLevelState) (vaddr : Nat) : LowLevelState × Option Nat :=
  (s, s.read_with (s.resolve vaddr) vaddr)

/-- Modelled from the spec (section 4.4): `write(vaddr, value)` resolves
through the cache, else the page table, and updates the word there; on a
failed resolution (or denied attributes) the state is unchanged. -/
def write (s : LowLevelState) (vaddr value : Nat) : LowLevelState × PagingResult :=
  match s.write_with (s.resolve vaddr) vaddr value with
  | some mem2 => ({ pt := s.pt, tlb := s.tlb, mem := mem2 }, .Ok)
  | none => (s, .Err)

/-- Modelled from the spec (sections 4.4 and 7): `map(vbase, frame)` operates
on the page table only; it fails (leaving the state unchanged) when the new
mapping's region is already occupied — its base coincides with, or its
virtual range overlaps, an existing mapping — and otherwise adds the mapping,
the cache untouched. -/
def map (s : LowLevelState) (vbase : Nat) (frame : Frame) :
    LowLevelState × PagingResult :=
  if s.pt.any (fun bf => bf.1 == vbase || overlap bf.1 bf.2.size vbase frame.size) then
    (s, .Err)
  else
    ({ pt := (vbase, frame) :: s.pt, tlb := s.tlb, mem := s.mem }, .Ok)

/-- Modelled from the spec (section 4.4): `unmap` removes the mapping for
`base` from the page table and evicts any cache entry for it in the same
atomic step; it fails (leaving the state unchanged) if `base` is unmapped. -/
def unmap (s : LowLevelState) (base : Nat) : LowLevelState :=
  if s.pt.any (fun bf => bf.1 == base) then
    { pt := s.pt.filter (fun bf => bf.1 ≠ base),
      tlb := s.tlb.filter (fun bf => bf.1 ≠ base),
      mem := s.mem }
  else s

/-- Modelled from the spec (section 4.4): `query(vaddr)` resolves through the
page table; the state is unchanged. -/
def query (s : LowLevelState) (vaddr : Nat) : LowLevelState × Option (Nat × Frame) :=
  (s, s.resolve_pt vaddr)

/-- Modelled from the spec (section 4.4): the internal `cacheEvict` drops any
cache entry for `base`; pure housekeeping with no semantic effect. -/
def cache_evict (s : LowLevelState) (base : Nat) : LowLevelState :=
  { pt := s.pt, tlb := s.tlb.filter (fun bf => bf.1 ≠ base), mem := s.mem }

end LowLevelState

/-! ## High-level state (`src/src/spec/high_level.rs`)

`Map` is represented as an `Option`-valued function (as vstd's `Map` is an
arbitrary partial map, not a finite structure). -/

/-- From `high_level.rs`: the abstract memory state.  `mem` is the
8-byte-word-indexed virtual memory, `mappings` the virtual-base-to-frame
map; `pmem_size` is the constant from `HighLevelConstants`. -/
structure HighLevelState where
  mem : Nat → Option Nat
  mappings : Nat → Option Frame
  pmem_size : Nat

namespace HighLevelState

/-- From `high_level.rs` `mem_domain_covered_by_mappings`: the word indices
covered by some mapping (`vidx.addr()` is `vidx * 8`; `within(a, b, sz)` is
`b ≤ a < b + sz`). -/
def mem_domain_covered_by_mappings (s : HighLevelState) (vidx : Nat) : Prop :=
  ∃ base frame, s.mappings base = some frame ∧
    base ≤ vidx * 8 ∧ vidx * 8 < base + frame.size

/-- From `high_level.rs` `overlaps_pmem`: the new frame overlaps some mapped
frame in physical memory. -/
def overlaps_pmem (s : HighLevelState) (frame : Frame) : Prop :=
  ∃ base1 frame1, s.mappings base1 = some frame1 ∧
    overlap frame1.base frame1.size frame.base frame.size = true

/-- From `high_level.rs` `overlaps_vmem`: the new mapping overlaps some
existing mapping in virtual memory. -/
def overlaps_vmem (s : HighLevelState) (vaddr : Nat) (frame : Frame) : Prop :=
  ∃ base frame1, s.mappings base = some frame1 ∧
    overlap base frame1.size vaddr frame.size = true

/-- From `high_level.rs` `HighLevelState::map` (lines 111-144): the map
transition relation.  The source's spec-mode `if` on `overlaps_vmem` is
rendered as the pair of implications (the condition is not decidable). -/
def map (s1 s2 : HighLevelState) (vaddr : Nat) (frame : Frame) (res : PagingResult) : Prop :=
  aligned vaddr frame.size ∧
  aligned frame.base frame.size ∧
  ¬ s1.overlaps_pmem frame ∧
  (s1.overlaps_vmem vaddr frame →
    res = .Err ∧ s1.mem = s2.mem ∧ s1.mappings = s2.mappings) ∧
  (¬ s1.overlaps_vmem vaddr frame →
    res = .Ok ∧
    (fun b => if b = vaddr then some frame else s1.mappings b) = s2.mappings ∧
    (∀ i, (s2.mem i).isSome ↔ s2.mem_domain_covered_by_mappings i))

end HighLevelState

/-! ## Reachability for the tree model -/

/-- States reachable from `init` by successful `map` / `unmap` calls that
respect the map contract (supported frame size, aligned base addresses,
frame within physical memory bounds). -/
inductive Reachable (init : PTTreeModel) : PTTreeModel → Prop where
  | refl : Reachable init init
  | map_step (m m' : PTTreeModel) (vbase : Nat) (frame : Frame) :
      Reachable init m →
      m.arch.is_valid_frame_size frame.size →
      aligned vbase frame.size →
      aligned frame.base frame.size →
      m.pmem_lb ≤ frame.base →
      frame.base + frame.size ≤ m.pmem_ub →
      m.map vbase frame = some m' →
      Reachable init m'
  | unmap_step (m m' : PTTreeModel) (vbase : Nat) :
      Reachable init m →
      m.unmap vbase = some m' →
      Reachable init m'

/-! ## Concrete instances used by the claim theorems -/

/-- A one-level architecture: fan-out 2, frame size 4. -/
def archA : PTArch := ⟨[⟨2, 4⟩]⟩

/-- A two-level architecture: level 0 has fan-out 2 and frame size 4,
level 1 has fan-out 4 and frame size 1 (so 4 = 1 * 4). -/
def archB : PTArch := ⟨[⟨2, 4⟩, ⟨4, 1⟩]⟩

def cstA : PTConstants := ⟨archA, 0, 100⟩

def cstB : PTConstants := ⟨archB, 0, 100⟩

def attrRW : FrameAttr := ⟨true, true, false, true⟩

/-- A frame of `archA`'s level-0 size. -/
def frameA : Frame := ⟨8, 4, attrRW⟩

/-- A frame of `archB`'s level-1 size. -/
def frameB : Frame := ⟨8, 1, attrRW⟩

/-- The empty tree model over `archA`. -/
def cexM0 : PTTreeModel := PTTreeModel.empty cstA

/-- `cexM0` after `map(0, frameA)`. -/
def cexM1 : PTTreeModel := ⟨TreeModel.recursive_insert cexM0.root [0] (.frame frameA)⟩

/-- `cexM1` after `map(4, frameA)` — the same physical frame mapped twice. -/
def cexM2 : PTTreeModel := ⟨TreeModel.recursive_insert cexM1.root [1] (.frame frameA)⟩

/-- The empty tree model over `archB`. -/
def wB0 : PTTreeModel := PTTreeModel.empty cstB

/-- `wB0` after `map(5, frameB)` (path `[1, 1]`). -/
def wB1 : PTTreeModel := (wB0.map 5 frameB).getD wB0

/-- A sample decoded entry for the executable page table. -/
def c1pte : PTE := PTE.new 8 attrRW false

/-- An executable page table over `archA` whose root slot 0 is empty. -/
def c1ptEmpty : PageTable := ⟨⟨archA, 0, [(0, ⟨0, [PTE.empty, PTE.empty]⟩)], 1⟩, cstA⟩

/-- An executable page table over `archA` whose root slot 0 is occupied. -/
def c1ptBusy : PageTable := ⟨⟨archA, 0, [(0, ⟨0, [PTE.new 16 attrRW false, PTE.empty]⟩)], 1⟩, cstA⟩

/-- A tree over `cstA` whose slot 0 holds `frameA`. -/
def c1occ : PTTreeNode := ((PTTreeNode.new cstA 0).recursive_insert [0] frameA).1

/-- A tree over `cstB` whose root slot 0 holds a level-0 frame. -/
def c9tree : PTTreeNode := ((PTTreeNode.new cstB 0).recursive_insert [0] ⟨8, 4, attrRW⟩).1

/-- A low-level state with one mapping, cached in the TLB. -/
def sLL : LowLevelState := ⟨[(0, frameA)], [(0, frameA)], [7, 7]⟩

/-- The empty high-level state. -/
def hlS1 : HighLevelState := ⟨fun _ => none, fun _ => none, 0⟩

def hlF : Frame := ⟨0, 4, attrRW⟩

/-- `hlS1` after the map transition at `vaddr 0` with `hlF`. -/
def hlS2 : HighLevelState :=
  ⟨fun i => if i = 0 then some 0 else none, fun b => if b = 0 then some hlF else none, 0⟩

theorem levelOfSizeAux_spec (size : Nat) (ls : List ArchLevel)
    (h : ∃ l, l < ls.length ∧ (ls.getD l ⟨0, 0⟩).frame_size = size) :
    levelOfSizeAux size ls < ls.length ∧
      (ls.getD (levelOfSizeAux size ls) ⟨0, 0⟩).frame_size = size := by
  induction ls with
  | nil => obtain ⟨l, hl, _⟩ := h; simp at hl
  | cons lv rest ih =>
    by_cases hfs : lv.frame_size = size
    · simp [levelOfSizeAux, hfs]
    · obtain ⟨l, hl, hsz⟩ := h
      cases l with
      | zero => simp [List.getD] at hsz; exact absurd hsz hfs
      | succ l' =>
        have := ih ⟨l', by simpa using hl, by simpa [List.getD] using hsz⟩
        simp only [levelOfSizeAux, if_neg hfs]
        constructor
        · simpa using Nat.succ_lt_succ this.1
        · simpa [List.getD] using this.2

/-- `level_of_frame_size` is correct on supported sizes. -/
theorem level_of_frame_size_spec (a : PTArch) (size : Nat)
    (h : a.is_valid_frame_size size) :
    a.level_of_frame_size size < a.level_count ∧
      a.frame_size (a.level_of_frame_size size) = size :=
  levelOfSizeAux_spec size a.levels h

/-! ## List helpers -/

theorem getD_set_self {α : Type} (l : List α) (i : Nat) (v d : α) (h : i < l.length) :
    (l.set i v).getD i d = v := by
  simp [List.getD]
  rw [List.getElem?_set_self]
  · simp
  · exact h

theorem getD_set_ne {α : Type} (l : List α) (i j : Nat) (v d : α) (h : i ≠ j) :
    (l.set i v).getD j d = l.getD j d := by
  simp [List.getD, List.getElem?_set_ne h]

theorem set_getD_self {α : Type} (l : List α) (i : Nat) (d : α) (h : i < l.length) :
    l.set i (l.getD i d) = l := by
  induction l generalizing i with
  | nil => simp at h
  | cons a t ih =>
    cases i with
    | zero => simp [List.getD]
    | succ i' =>
      simp only [List.getD_cons_succ, List.set_cons_succ]
      rw [ih i' (by simpa using h)]

theorem getLast?_eq_getD {α : Type} (l : List α) (d : α) (h : l ≠ []) :
    l.getLast? = some (l.getD (l.length - 1) d) := by
  induction l with
  | nil => simp at h
  | cons a t ih =>
    cases t with
    | nil => simp [List.getD]
    | cons b t' =>
      rw [List.getLast?_cons_cons, ih (by simp)]
      simp [List.getD]

theorem getD_lt_length_of_ne {α : Type} (l : List α) (i : Nat) (d : α)
    (h : l.getD i d ≠ d) : i < l.length := by
  by_contra hge
  rw [List.getD_eq_default] at h
  · exact h rfl
  · omega

theorem getD_mem_of_lt {α : Type} (l : List α) (i : Nat) (d : α) (h : i < l.length) :
    l.getD i d ∈ l := by
  rw [List.getD_eq_getElem l d h]
  exact List.getElem_mem h

/-! ## Basic facts about `recursive_visit` -/

theorem recursive_visit_nil (n : PTTreeNode) : n.recursive_visit [] = [] := rfl

theorem recursive_visit_single (n : PTTreeNode) (idx : Nat) :
    n.recursive_visit [idx] = [n.entries.getD idx .empty] := rfl

theorem recursive_visit_cons_node (n : PTTreeNode) (idx : Nat) (remain : List Nat)
    (child : PTTreeNode) (h : remain ≠ [])
    (he : n.entries.getD idx .empty = .node child) :
    n.recursive_visit (idx :: remain) = NodeEntry.node child :: child.recursive_visit remain := by
  cases remain with
  | nil => exact absurd rfl h
  | cons b t =>
    show (match n.entries.getD idx .empty with
      | .node child => NodeEntry.node child :: child.recursive_visit (b :: t)
      | e => [e]) = _
    rw [he]

theorem recursive_visit_cons_frame (n : PTTreeNode) (idx : Nat) (remain : List Nat)
    (f : Frame) (h : remain ≠ [])
    (he : n.entries.getD idx .empty = .frame f) :
    n.recursive_visit (idx :: remain) = [NodeEntry.frame f] := by
  cases remain with
  | nil => exact absurd rfl h
  | cons b t =>
    show (match n.entries.getD idx .empty with
      | .node child => NodeEntry.node child :: child.recursive_visit (b :: t)
      | e => [e]) = _
    rw [he]

theorem recursive_visit_cons_empty (n : PTTreeNode) (idx : Nat) (remain : List Nat)
    (h : remain ≠ [])
    (he : n.entries.getD idx .empty = .empty) :
    n.recursive_visit (idx :: remain) = [NodeEntry.empty] := by
  cases remain with
  | nil => exact absurd rfl h
  | cons b t =>
    show (match n.entries.getD idx .empty with
      | .node child => NodeEntry.node child :: child.recursive_visit (b :: t)
      | e => [e]) = _
    rw [he]

theorem visit_length_pos (n : PTTreeNode) (p : List Nat) (h : p ≠ []) :
    0 < (n.recursive_visit p).length := by
  cases p with
  | nil => exact absurd rfl h
  | cons idx remain =>
    cases remain with
    | nil => simp [recursive_visit_single]
    | cons b t =>
      cases he : n.entries.getD idx .empty with
      | node child => rw [recursive_visit_cons_node n idx (b :: t) child (by simp) he]; simp
      | frame f => rw [recursive_visit_cons_frame n idx (b :: t) f (by simp) he]; simp
      | empty => rw [recursive_visit_cons_empty n idx (b :: t) (by simp) he]; simp

theorem visit_length_le (n : PTTreeNode) (p : List Nat) :
    (n.recursive_visit p).length ≤ p.length := by
  induction p generalizing n with
  | nil => simp [recursive_visit_nil]
  | cons idx remain ih =>
    cases remain with
    | nil => simp [recursive_visit_single]
    | cons b t =>
      cases he : n.entries.getD idx .empty with
      | node child =>
        rw [recursive_visit_cons_node n idx (b :: t) child (by simp) he]
        simpa using ih child
      | frame f => rw [recursive_visit_cons_frame n idx (b :: t) f (by simp) he]; simp
      | empty => rw [recursive_visit_cons_empty n idx (b :: t) (by simp) he]; simp

/-- Every visited entry except the final one is a sub-node. -/
theorem visit_isNode_of_lt (n : PTTreeNode) (p : List Nat) (i : Nat)
    (hi : i + 1 < (n.recursive_visit p).length) :
    ∃ c, (n.recursive_visit p).getD i .empty = .node c := by
  induction p generalizing n i with
  | nil => simp [recursive_visit_nil] at hi
  | cons idx remain ih =>
    cases remain with
    | nil => simp [recursive_visit_single] at hi
    | cons b t =>
      cases he : n.entries.getD idx .empty with
      | node child =>
        rw [recursive_visit_cons_node n idx (b :: t) child (by simp) he] at hi ⊢
        cases i with
        | zero => exact ⟨child, rfl⟩
        | succ i' =>
          simp only [List.getD_cons_succ]
          exact ih child i' (by simpa using hi)
      | frame f =>
        rw [recursive_visit_cons_frame n idx (b :: t) f (by simp) he] at hi
        simp at hi
      | empty =>
        rw [recursive_visit_cons_empty n idx (b :: t) (by simp) he] at hi
        simp at hi

/-- Visiting along a longer path extends the visit of a non-empty prefix. -/
theorem visit_mono (n : PTTreeNode) (p2 p : List Nat) (hpre : p2 <+: p) (hne : p2 ≠ []) :
    n.recursive_visit p2 <+: n.recursive_visit p := by
  induction p2 generalizing n p with
  | nil => exact absurd rfl hne
  | cons idx remain2 ih =>
    obtain ⟨t, rfl⟩ := hpre
    cases remain2 with
    | nil =>
      cases t with
      | nil => simp
      | cons b t' =>
        rw [recursive_visit_single, List.singleton_append]
        cases he : n.entries.getD idx .empty with
        | node child =>
          rw [recursive_visit_cons_node n idx (b :: t') child (by simp) he]
          exact ⟨child.recursive_visit (b :: t'), rfl⟩
        | frame f => rw [recursive_visit_cons_frame n idx (b :: t') f (by simp) he]
        | empty => rw [recursive_visit_cons_empty n idx (b :: t') (by simp) he]
    | cons c rem' =>
      rw [List.cons_append]
      cases he : n.entries.getD idx .empty with
      | node child =>
        rw [recursive_visit_cons_node n idx (c :: rem') child (by simp) he,
            recursive_visit_cons_node n idx ((c :: rem') ++ t) child (by simp) he]
        exact (List.prefix_cons_inj _).mpr (ih child ((c :: rem') ++ t) ⟨t, rfl⟩ (by simp))
      | frame f =>
        rw [recursive_visit_cons_frame n idx (c :: rem') f (by simp) he,
            recursive_visit_cons_frame n idx ((c :: rem') ++ t) f (by simp) he]
      | empty =>
        rw [recursive_visit_cons_empty n idx (c :: rem') (by simp) he,
            recursive_visit_cons_empty n idx ((c :: rem') ++ t) (by simp) he]

/-! ## Facts about the structural invariants -/

theorem invariants_def (c : PTConstants) (lvl : Nat) (entries : List NodeEntry) :
    PTTreeNode.invariants (.mk c lvl entries) =
      (decide c.arch.valid && decide (lvl < c.arch.level_count) &&
        decide (entries.length = c.arch.entry_count lvl) && entriesInv c lvl entries) := by
  rw [PTTreeNode.invariants]

theorem invariants_unfold (n : PTTreeNode) (h : n.invariants = true) :
    n.constants.arch.valid ∧ n.level < n.constants.arch.level_count ∧
      n.entries.length = n.constants.arch.entry_count n.level ∧
      entriesInv n.constants n.level n.entries = true := by
  cases n with
  | mk c lvl entries =>
    rw [invariants_def] at h
    simp only [Bool.and_eq_true, decide_eq_true_eq] at h
    exact ⟨h.1.1.1, h.1.1.2, h.1.2, h.2⟩

theorem invariants_intro (n : PTTreeNode)
    (h1 : n.constants.arch.valid) (h2 : n.level < n.constants.arch.level_count)
    (h3 : n.entries.length = n.constants.arch.entry_count n.level)
    (h4 : entriesInv n.constants n.level n.entries = true) : n.invariants = true := by
  cases n with
  | mk c lvl entries =>
    rw [invariants_def]
    simp only [Bool.and_eq_true, decide_eq_true_eq]
    exact ⟨⟨⟨h1, h2⟩, h3⟩, h4⟩

theorem entriesInv_mem (c : PTConstants) (lvl : Nat) (l : List NodeEntry)
    (h : entriesInv c lvl l = true) (e : NodeEntry) (he : e ∈ l) :
    PTTreeNode.is_entry_valid e lvl c = true ∧ entryChildInv e = true := by
  induction l with
  | nil => simp at he
  | cons a t ih =>
    rw [entriesInv] at h
    simp only [Bool.and_eq_true] at h
    rcases List.mem_cons.mp he with rfl | hmem
    · exact ⟨h.1.1, h.1.2⟩
    · exact ih h.2 hmem

theorem entriesInv_set (c : PTConstants) (lvl : Nat) (l : List NodeEntry) (i : Nat)
    (e : NodeEntry) (h : entriesInv c lvl l = true)
    (hv : PTTreeNode.is_entry_valid e lvl c = true) (hc : entryChildInv e = true) :
    entriesInv c lvl (l.set i e) = true := by
  induction l generalizing i with
  | nil => simpa using h
  | cons a t ih =>
    rw [entriesInv] at h
    simp only [Bool.and_eq_true] at h
    cases i with
    | zero =>
      rw [List.set_cons_zero, entriesInv]
      simp only [Bool.and_eq_true]
      exact ⟨⟨hv, hc⟩, h.2⟩
    | succ i' =>
      rw [List.set_cons_succ, entriesInv]
      simp only [Bool.and_eq_true]
      exact ⟨h.1, ih i' h.2⟩

theorem entriesInv_replicate (c : PTConstants) (lvl k : Nat) :
    entriesInv c lvl (List.replicate k .empty) = true := by
  induction k with
  | zero => rfl
  | succ k' ih =>
    rw [List.replicate_succ, entriesInv]
    simp only [Bool.and_eq_true]
    exact ⟨⟨rfl, rfl⟩, ih⟩

/-- `PTTreeNode::new` satisfies the invariants
(`lemma_new_implies_invariants`). -/
theorem new_invariants (c : PTConstants) (lvl : Nat)
    (h1 : c.arch.valid) (h2 : lvl < c.arch.level_count) :
    (PTTreeNode.new c lvl).invariants = true := by
  apply invariants_intro <;> simp [PTTreeNode.new, PTTreeNode.constants, PTTreeNode.level,
    PTTreeNode.entries, h1, h2, entriesInv_replicate]

theorem update_constants (n : PTTreeNode) (i : Nat) (e : NodeEntry) :
    (n.update i e).constants = n.constants := rfl

theorem update_level (n : PTTreeNode) (i : Nat) (e : NodeEntry) :
    (n.update i e).level = n.level := rfl

theorem update_entries (n : PTTreeNode) (i : Nat) (e : NodeEntry) :
    (n.update i e).entries = n.entries.set i e := by
  cases n; rfl

/-- `PTTreeNode::update` preserves the invariants
(`lemma_update_preserves_invariants`). -/
theorem update_invariants (n : PTTreeNode) (i : Nat) (e : NodeEntry)
    (hinv : n.invariants = true)
    (hv : PTTreeNode.is_entry_valid e n.level n.constants = true)
    (hc : entryChildInv e = true) : (n.update i e).invariants = true := by
  obtain ⟨h1, h2, h3, h4⟩ := invariants_unfold n hinv
  apply invariants_intro
  · rw [update_constants]; exact h1
  · rw [update_constants, update_level]; exact h2
  · rw [update_constants, update_level, update_entries]
    simpa using h3
  · rw [update_constants, update_level, update_entries]
    exact entriesInv_set _ _ _ _ _ h4 hv hc

/-- Extract the facts about a sub-node entry of an invariant-satisfying node. -/
theorem invariants_child (n : PTTreeNode) (idx : Nat) (child : PTTreeNode)
    (hinv : n.invariants = true)
    (he : n.entries.getD idx .empty = .node child) :
    child.invariants = true ∧ child.level = n.level + 1 ∧ child.constants = n.constants := by
  obtain ⟨h1, h2, h3, h4⟩ := invariants_unfold n hinv
  have hlt : idx < n.entries.length :=
    getD_lt_length_of_ne _ _ _ (by rw [he]; simp)
  have hmem : NodeEntry.node child ∈ n.entries := by
    rw [← he]; exact getD_mem_of_lt _ _ _ hlt
  obtain ⟨hval, hchild⟩ := entriesInv_mem _ _ _ h4 _ hmem
  rw [PTTreeNode.is_entry_valid] at hval
  by_cases hcond : n.level < n.constants.arch.level_count - 1
  · rw [if_pos hcond] at hval
    simp only [Bool.and_eq_true, decide_eq_true_eq] at hval
    exact ⟨by rw [entryChildInv] at hchild; exact hchild, hval.1, hval.2⟩
  · rw [if_neg hcond] at hval
    simp at hval

/-- Extract the facts about a frame entry of an invariant-satisfying node. -/
theorem invariants_frame (n : PTTreeNode) (idx : Nat) (f : Frame)
    (hinv : n.invariants = true)
    (he : n.entries.getD idx .empty = .frame f) :
    f.size = n.constants.arch.frame_size n.level ∧ f.base % f.size = 0 ∧
      n.constants.pmem_lb ≤ f.base ∧ f.base + f.size ≤ n.constants.pmem_ub := by
  obtain ⟨h1, h2, h3, h4⟩ := invariants_unfold n hinv
  have hlt : idx < n.entries.length :=
    getD_lt_length_of_ne _ _ _ (by rw [he]; simp)
  have hmem : NodeEntry.frame f ∈ n.entries := by
    rw [← he]; exact getD_mem_of_lt _ _ _ hlt
  obtain ⟨hval, _⟩ := entriesInv_mem _ _ _ h4 _ hmem
  rw [PTTreeNode.is_entry_valid] at hval
  simp only [Bool.and_eq_true, decide_eq_true_eq] at hval
  exact ⟨hval.1.1.1, hval.1.1.2, hval.1.2, hval.2⟩

/-! ## Path validity helpers -/

theorem valid_head (p : List Nat) (i : Nat) (arch : PTArch) (s : Nat)
    (h : PTTreePath.valid (i :: p) arch s) : i < arch.entry_count s := by
  have := h.2.2 0 (by simp)
  simpa using this

theorem valid_tail (p : List Nat) (i : Nat) (arch : PTArch) (s : Nat)
    (h : PTTreePath.valid (i :: p) arch s) (hp : p ≠ []) :
    PTTreePath.valid p arch (s + 1) := by
  obtain ⟨h1, h2, h3⟩ := h
  refine ⟨List.length_pos.2 hp, by simp at h2 ⊢; omega, ?_⟩
  intro j hj
  have := h3 (j + 1) (by simp; omega)
  simpa [Nat.add_assoc, Nat.add_comm 1 s] using this


/-! ## Path order and address arithmetic -/

/-- Upper bound: the address contribution of a valid sub-path starting below
level `m`, plus the terminal frame size, is at most level `m`'s frame size
(the argument underlying `lemma_to_vaddr_upper_bound` in `path.rs`). -/
theorem toVaddrFrom_add_fs_le (arch : PTArch) (harch : arch.valid) (m : Nat)
    (p : List Nat) (hne : p ≠ []) (hlen : m + 1 + p.length ≤ arch.level_count)
    (hidx : ∀ j, j < p.length → p.getD j 0 < arch.entry_count (m + 1 + j)) :
    PTTreePath.toVaddrFrom arch (m + 1) p + arch.frame_size (m + p.length) ≤
      arch.frame_size m := by
  obtain ⟨hc0, hec, hfs, hchain⟩ := harch
  induction p generalizing m with
  | nil => exact absurd rfl hne
  | cons x rest ih =>
    have hx : x < arch.entry_count (m + 1) := by simpa using hidx 0 (by simp)
    have hstep : arch.frame_size m = arch.frame_size (m + 1) * arch.entry_count (m + 1) := by
      apply hchain m <;> simp at hlen ⊢ <;> omega
    cases rest with
    | nil =>
      rw [PTTreePath.toVaddrFrom]
      simp only [PTTreePath.toVaddrFrom, List.length_singleton]
      have : (x + 1) * arch.frame_size (m + 1) ≤
          arch.entry_count (m + 1) * arch.frame_size (m + 1) :=
        Nat.mul_le_mul_right _ hx
      calc x * arch.frame_size (m + 1) + 0 + arch.frame_size (m + 1)
          = (x + 1) * arch.frame_size (m + 1) := by ring
        _ ≤ arch.entry_count (m + 1) * arch.frame_size (m + 1) := this
        _ = arch.frame_size m := by rw [hstep]; ring
    | cons y t =>
      have hrec := ih (m + 1) (by simp) (by simp at hlen ⊢; omega)
        (fun j hj => by
          have := hidx (j + 1) (by simp at hj ⊢; omega)
          simp only [List.getD_cons_succ] at this
          have harg : m + 1 + (j + 1) = m + 1 + 1 + j := by omega
          rw [harg] at this
          exact this)
      rw [PTTreePath.toVaddrFrom]
      have hlen2 : m + (y :: t).length.succ = m + 1 + (y :: t).length := by omega
      have hgoal : x * arch.frame_size (m + 1) +
          PTTreePath.toVaddrFrom arch (m + 1 + 1) (y :: t) +
          arch.frame_size (m + 1 + (y :: t).length) ≤ arch.frame_size m := by
        have h1 : PTTreePath.toVaddrFrom arch (m + 1 + 1) (y :: t) +
            arch.frame_size (m + 1 + (y :: t).length) ≤ arch.frame_size (m + 1) := hrec
        calc x * arch.frame_size (m + 1) +
              PTTreePath.toVaddrFrom arch (m + 1 + 1) (y :: t) +
              arch.frame_size (m + 1 + (y :: t).length)
            ≤ x * arch.frame_size (m + 1) + arch.frame_size (m + 1) := by omega
          _ = (x + 1) * arch.frame_size (m + 1) := by ring
          _ ≤ arch.entry_count (m + 1) * arch.frame_size (m + 1) :=
              Nat.mul_le_mul_right _ hx
          _ = arch.frame_size m := by rw [hstep]; ring
      have harg2 : m + (x :: y :: t).length = m + 1 + (y :: t).length := by simp; omega
      rw [harg2]
      simpa [Nat.add_assoc] using hgoal

/-- The core path-order argument (`lemma_path_order_implies_vaddr_order`):
if two index sequences agree below position `i` and differ there with
`a.getD i < b.getD i`, the address of `a` plus its terminal frame size is at
most the address of `b`. -/
theorem order_aux (arch : PTArch) (harch : arch.valid) (s i : Nat) (a b : List Nat)
    (hia : i < a.length) (hib : i < b.length)
    (hlena : s + a.length ≤ arch.level_count)
    (hidxa : ∀ j, j < a.length → a.getD j 0 < arch.entry_count (s + j))
    (hagree : ∀ j, j < i → a.getD j 0 = b.getD j 0)
    (hlt : a.getD i 0 < b.getD i 0) :
    PTTreePath.toVaddrFrom arch s a + arch.frame_size (s + a.length - 1) ≤
      PTTreePath.toVaddrFrom arch s b := by
  induction i generalizing s a b with
  | zero =>
    cases a with
    | nil => simp at hia
    | cons x a' =>
      cases b with
      | nil => simp at hib
      | cons y b' =>
        simp only [List.getD_cons_zero] at hlt
        rw [PTTreePath.toVaddrFrom, PTTreePath.toVaddrFrom]
        have hxy : x + 1 ≤ y := hlt
        cases ha' : a' with
        | nil =>
          subst ha'
          simp only [PTTreePath.toVaddrFrom, List.length_singleton]
          have : s + 1 - 1 = s := by omega
          rw [this]
          calc x * arch.frame_size s + 0 + arch.frame_size s
              = (x + 1) * arch.frame_size s := by ring
            _ ≤ y * arch.frame_size s := Nat.mul_le_mul_right _ hxy
            _ ≤ y * arch.frame_size s + PTTreePath.toVaddrFrom arch (s + 1) b' := by omega
        | cons z t =>
          subst ha'
          have hub := toVaddrFrom_add_fs_le arch harch s (z :: t) (by simp)
            (by simp at hlena ⊢; omega)
            (fun j hj => by
              have := hidxa (j + 1) (by simp only [List.length_cons] at hj ⊢; omega)
              simp only [List.getD_cons_succ] at this
              have harg : s + (j + 1) = s + 1 + j := by omega
              rw [harg] at this
              exact this)
          have harg : s + (x :: z :: t).length - 1 = s + (z :: t).length := by simp only [List.length_cons]; omega
          rw [harg]
          calc x * arch.frame_size s + PTTreePath.toVaddrFrom arch (s + 1) (z :: t) +
                arch.frame_size (s + (z :: t).length)
              ≤ x * arch.frame_size s + arch.frame_size s := by omega
            _ = (x + 1) * arch.frame_size s := by ring
            _ ≤ y * arch.frame_size s := Nat.mul_le_mul_right _ hxy
            _ ≤ y * arch.frame_size s + PTTreePath.toVaddrFrom arch (s + 1) b' := by omega
  | succ i' ih =>
    cases a with
    | nil => simp at hia
    | cons x a' =>
      cases b with
      | nil => simp at hib
      | cons y b' =>
        have hxy : x = y := by simpa using hagree 0 (by omega)
        subst hxy
        rw [PTTreePath.toVaddrFrom, PTTreePath.toVaddrFrom]
        have hrec := ih (s + 1) a' b' (by simp at hia; omega) (by simp at hib; omega)
          (by simp at hlena ⊢; omega)
          (fun j hj => by
            have := hidxa (j + 1) (by simp only [List.length_cons] at hj ⊢; omega)
            simp only [List.getD_cons_succ] at this
            have harg : s + (j + 1) = s + 1 + j := by omega
            rw [harg] at this
            exact this)
          (fun j hj => by
            have := hagree (j + 1) (by omega)
            simpa using this)
          (by simpa using hlt)
        have harg : s + (x :: a').length - 1 = s + 1 + a'.length - 1 := by simp only [List.length_cons]; omega
        rw [harg]
        have ha'ne : a' ≠ [] := by
          intro hcon; subst hcon; simp at hia
        omega

/-! ## The round trip `to_vaddr ∘ from_vaddr` -/

theorem mod_mul_decomp (a b c : Nat) (hb : 0 < b) (hc : 0 < c) :
    a % (b * c) = b * (a / b % c) + a % b := by
  have h2 : b * (a / b) + a % b = a := Nat.div_add_mod a b
  have h3 : c * (a / b / c) + a / b % c = a / b := Nat.div_add_mod (a / b) c
  have h4 : a / b / c = a / (b * c) := Nat.div_div_eq_div_mul a b c
  have hlt : b * (a / b % c) + a % b < b * c := by
    have h5 : a / b % c < c := Nat.mod_lt _ hc
    have h6 : a % b < b := Nat.mod_lt _ hb
    have h7 : a / b % c + 1 ≤ c := h5
    calc b * (a / b % c) + a % b < b * (a / b % c) + b := by omega
      _ = b * (a / b % c + 1) := by ring
      _ ≤ b * c := Nat.mul_le_mul_left _ h7
  have key : a = b * c * (a / (b * c)) + (b * (a / b % c) + a % b) := by
    calc a = b * (a / b) + a % b := h2.symm
      _ = b * (c * (a / b / c) + a / b % c) + a % b := by rw [h3]
      _ = b * c * (a / b / c) + (b * (a / b % c) + a % b) := by ring
      _ = b * c * (a / (b * c)) + (b * (a / b % c) + a % b) := by rw [h4]
  calc a % (b * c) = (b * c * (a / (b * c)) + (b * (a / b % c) + a % b)) % (b * c) := by
        rw [← key]
    _ = (b * (a / b % c) + a % b) % (b * c) := by
        rw [Nat.add_comm, Nat.add_mul_mod_self_left]
    _ = b * (a / b % c) + a % b := Nat.mod_eq_of_lt hlt

/-- Mixed-radix decomposition of the visited index sequence: summing the
per-level contributions from level `m` for `k` levels and adding the
remainder below the last level yields the address modulo level `m`'s span. -/
theorem roundtrip_aux (arch : PTArch) (harch : arch.valid) (va : Nat) :
    ∀ k m, 1 ≤ k → m + k ≤ arch.level_count →
    PTTreePath.toVaddrFrom arch m
        ((List.range' m k).map (fun i => arch.pte_index_of_va va i)) +
      va % arch.frame_size (m + k - 1) =
      va % (arch.frame_size m * arch.entry_count m) := by
  obtain ⟨hc0, hec, hfs, hchain⟩ := harch
  intro k
  induction k with
  | zero => omega
  | succ k' ih =>
    intro m hk hmk
    rw [List.range'_succ]
    simp only [List.map_cons, PTTreePath.toVaddrFrom]
    cases Nat.eq_zero_or_pos k' with
    | inl hz =>
      subst hz
      simp only [List.range'_zero, List.map_nil, PTTreePath.toVaddrFrom]
      have hm : m < arch.level_count := by omega
      have harg : m + 1 - 1 = m := by omega
      rw [harg, PTArch.pte_index_of_va]
      rw [mod_mul_decomp va (arch.frame_size m) (arch.entry_count m) (hfs m hm) (hec m hm)]
      ring
    | inr hpos =>
      have hm : m < arch.level_count := by omega
      have hm1 : m + 1 < arch.level_count := by omega
      have hrec := ih (m + 1) hpos (by omega)
      have hstep : arch.frame_size m = arch.frame_size (m + 1) * arch.entry_count (m + 1) :=
        hchain m hm hm1
      have harg : m + 1 + k' - 1 = m + (k' + 1) - 1 := by omega
      rw [harg] at hrec
      rw [PTArch.pte_index_of_va]
      calc arch.pte_index_of_va va m * arch.frame_size m +
            PTTreePath.toVaddrFrom arch (m + 1)
              ((List.range' (m + 1) k').map (fun i => arch.pte_index_of_va va i)) +
            va % arch.frame_size (m + (k' + 1) - 1)
          = arch.pte_index_of_va va m * arch.frame_size m + va % arch.frame_size m := by
            rw [← hstep] at hrec
            omega
        _ = va % (arch.frame_size m * arch.entry_count m) := by
            rw [PTArch.pte_index_of_va,
              mod_mul_decomp va (arch.frame_size m) (arch.entry_count m) (hfs m hm) (hec m hm)]
            ring

theorem from_vaddr_length (va : Nat) (arch : PTArch) (L : Nat) :
    (PTTreePath.from_vaddr va arch L).length = L + 1 := by
  simp [PTTreePath.from_vaddr]

theorem from_vaddr_getD (va : Nat) (arch : PTArch) (L i : Nat) (hi : i < L + 1) :
    (PTTreePath.from_vaddr va arch L).getD i 0 = arch.pte_index_of_va va i := by
  unfold PTTreePath.from_vaddr
  rw [List.getD_eq_getElem _ 0 (by simpa using hi)]
  simp

/-- `from_vaddr` yields a valid path rooted at level 0
(`lemma_from_vaddr_yields_valid_path`). -/
theorem from_vaddr_valid (arch : PTArch) (harch : arch.valid) (va L : Nat)
    (hL : L < arch.level_count) :
    PTTreePath.valid (PTTreePath.from_vaddr va arch L) arch 0 := by
  obtain ⟨hc0, hec, hfs, hchain⟩ := harch
  refine ⟨by simp [from_vaddr_length], by simp [from_vaddr_length]; omega, ?_⟩
  intro i hi
  rw [from_vaddr_length] at hi
  rw [from_vaddr_getD va arch L i hi]
  have : 0 < arch.entry_count i := hec i (by omega)
  simp only [Nat.add_zero]
  exact Nat.mod_lt _ this

theorem from_vaddr_take (va : Nat) (arch : PTArch) (L1 L2 : Nat) (h : L1 ≤ L2) :
    PTTreePath.from_vaddr va arch L1 <+: PTTreePath.from_vaddr va arch L2 := by
  unfold PTTreePath.from_vaddr
  refine List.IsPrefix.map _ ?_
  rw [List.prefix_iff_eq_take, List.take_range]
  simp [Nat.min_eq_left (by omega : L1 + 1 ≤ L2 + 1)]

/-- The round trip at its intended domain: for an address within the
architecture's addressable range, `to_vaddr (from_vaddr va level)` is `va`
rounded down to that level's frame size. -/
theorem to_vaddr_from_vaddr (arch : PTArch) (harch : arch.valid) (va L : Nat)
    (hL : L < arch.level_count)
    (hva : va < arch.frame_size 0 * arch.entry_count 0) :
    PTTreePath.to_vaddr (PTTreePath.from_vaddr va arch L) arch =
      va / arch.frame_size L * arch.frame_size L := by
  have haux := roundtrip_aux arch harch va (L + 1) 0 (by omega) (by omega)
  rw [Nat.mod_eq_of_lt hva] at haux
  have hrange : PTTreePath.from_vaddr va arch L =
      (List.range' 0 (L + 1)).map (fun i => arch.pte_index_of_va va i) := by
    unfold PTTreePath.from_vaddr
    rw [List.range_eq_range']
  have harg : 0 + (L + 1) - 1 = L := by omega
  rw [harg] at haux
  have hdm : arch.frame_size L * (va / arch.frame_size L) + va % arch.frame_size L = va :=
    Nat.div_add_mod va (arch.frame_size L)
  have hq : va / arch.frame_size L * arch.frame_size L =
      arch.frame_size L * (va / arch.frame_size L) := Nat.mul_comm _ _
  rw [PTTreePath.to_vaddr, hrange]
  omega

/-! ## Visits after `TreeModel` insert and remove -/

theorem getLast?_cons_of_ne_nil {α : Type} (a : α) (l : List α) (h : l ≠ []) :
    (a :: l).getLast? = l.getLast? := by
  cases l with
  | nil => exact absurd rfl h
  | cons b t => exact List.getLast?_cons_cons

theorem getD_replicate {α : Type} (k i : Nat) (a : α) :
    (List.replicate k a).getD i a = a := by
  by_cases h : i < k
  · rw [List.getD_eq_getElem _ a (by simpa using h)]
    simp
  · rw [List.getD_eq_default]
    simpa using h

/-- The visit only depends on the subtree hanging at the head index. -/
theorem visit_congr_head (n n' : PTTreeNode) (j : Nat) (q : List Nat)
    (h : n.entries.getD j .empty = n'.entries.getD j .empty) :
    n.recursive_visit (j :: q) = n'.recursive_visit (j :: q) := by
  cases q with
  | nil => rw [recursive_visit_single, recursive_visit_single, h]
  | cons b t =>
    cases he : n'.entries.getD j .empty with
    | node child =>
      rw [recursive_visit_cons_node n j (b :: t) child (by simp) (h.trans he),
          recursive_visit_cons_node n' j (b :: t) child (by simp) he]
    | frame f =>
      rw [recursive_visit_cons_frame n j (b :: t) f (by simp) (h.trans he),
          recursive_visit_cons_frame n' j (b :: t) f (by simp) he]
    | empty =>
      rw [recursive_visit_cons_empty n j (b :: t) (by simp) (h.trans he),
          recursive_visit_cons_empty n' j (b :: t) (by simp) he]

/-- A visit that consumed its whole path and did not end on a sub-node is
unchanged when the path is extended. -/
theorem visit_extend (n : PTTreeNode) (p q : List Nat) (hpre : p <+: q) (hne : p ≠ [])
    (hlen : (n.recursive_visit p).length = p.length)
    (hlast : ∀ c, (n.recursive_visit p).getLast? ≠ some (.node c)) :
    n.recursive_visit q = n.recursive_visit p := by
  induction p generalizing n q with
  | nil => exact absurd rfl hne
  | cons idx rem ih =>
    obtain ⟨t, rfl⟩ := hpre
    cases rem with
    | nil =>
      cases t with
      | nil => simp
      | cons b t' =>
        rw [recursive_visit_single] at hlast ⊢
        rw [List.singleton_append]
        cases he : n.entries.getD idx .empty with
        | node child =>
          exact absurd (by rw [he]; simp) (hlast child)
        | frame f => rw [recursive_visit_cons_frame n idx (b :: t') f (by simp) he]
        | empty => rw [recursive_visit_cons_empty n idx (b :: t') (by simp) he]
    | cons c rem' =>
      rw [List.cons_append]
      cases he : n.entries.getD idx .empty with
      | node child =>
        rw [recursive_visit_cons_node n idx (c :: rem') child (by simp) he] at hlen hlast ⊢
        rw [recursive_visit_cons_node n idx ((c :: rem') ++ t) child (by simp) he]
        have hvne : child.recursive_visit (c :: rem') ≠ [] := by
          have := visit_length_pos child (c :: rem') (by simp)
          exact List.length_pos.mp this
        have hlen' : (child.recursive_visit (c :: rem')).length = (c :: rem').length := by
          simpa using hlen
        have hlast' : ∀ cc, (child.recursive_visit (c :: rem')).getLast? ≠ some (.node cc) := by
          intro cc hcon
          exact hlast cc (by rw [getLast?_cons_of_ne_nil _ _ hvne]; exact hcon)
        rw [ih child ((c :: rem') ++ t) ⟨t, rfl⟩ (by simp) hlen' hlast']
      | frame f =>
        rw [recursive_visit_cons_frame n idx (c :: rem') f (by simp) he] at hlen
        simp at hlen
      | empty =>
        rw [recursive_visit_cons_empty n idx (c :: rem') (by simp) he] at hlen
        simp at hlen

/-! Equation lemmas for the insert/remove operations (stated per entry shape
to avoid the compiled matchers' overlapping-pattern side conditions). -/

theorem tm_insert_single_empty (n : PTTreeNode) (idx : Nat) (e : NodeEntry)
    (he : n.entries.getD idx .empty = .empty) :
    TreeModel.recursive_insert n [idx] e = n.update idx e := by
  show (match n.entries.getD idx .empty with
    | NodeEntry.empty => n.update idx e
    | _ => n) = _
  rw [he]

theorem tm_insert_single_node (n : PTTreeNode) (idx : Nat) (e : NodeEntry) (c : PTTreeNode)
    (he : n.entries.getD idx .empty = .node c) :
    TreeModel.recursive_insert n [idx] e = n := by
  show (match n.entries.getD idx .empty with
    | NodeEntry.empty => n.update idx e
    | _ => n) = _
  rw [he]

theorem tm_insert_single_frame (n : PTTreeNode) (idx : Nat) (e : NodeEntry) (f : Frame)
    (he : n.entries.getD idx .empty = .frame f) :
    TreeModel.recursive_insert n [idx] e = n := by
  show (match n.entries.getD idx .empty with
    | NodeEntry.empty => n.update idx e
    | _ => n) = _
  rw [he]

theorem tm_insert_cons_node (n : PTTreeNode) (idx : Nat) (remain : List Nat) (e : NodeEntry)
    (c : PTTreeNode) (h : remain ≠ []) (he : n.entries.getD idx .empty = .node c) :
    TreeModel.recursive_insert n (idx :: remain) e =
      n.update idx (.node (TreeModel.recursive_insert c remain e)) := by
  cases remain with
  | nil => exact absurd rfl h
  | cons b t =>
    show (match n.entries.getD idx .empty with
      | NodeEntry.node child => n.update idx (.node (TreeModel.recursive_insert child (b :: t) e))
      | NodeEntry.empty => n.update idx
          (.node (TreeModel.recursive_insert (PTTreeNode.new n.constants (n.level + 1)) (b :: t) e))
      | _ => n) = _
    rw [he]

theorem tm_insert_cons_empty (n : PTTreeNode) (idx : Nat) (remain : List Nat) (e : NodeEntry)
    (h : remain ≠ []) (he : n.entries.getD idx .empty = .empty) :
    TreeModel.recursive_insert n (idx :: remain) e =
      n.update idx
        (.node (TreeModel.recursive_insert (PTTreeNode.new n.constants (n.level + 1)) remain e)) := by
  cases remain with
  | nil => exact absurd rfl h
  | cons b t =>
    show (match n.entries.getD idx .empty with
      | NodeEntry.node child => n.update idx (.node (TreeModel.recursive_insert child (b :: t) e))
      | NodeEntry.empty => n.update idx
          (.node (TreeModel.recursive_insert (PTTreeNode.new n.constants (n.level + 1)) (b :: t) e))
      | _ => n) = _
    rw [he]

theorem tm_insert_cons_frame (n : PTTreeNode) (idx : Nat) (remain : List Nat) (e : NodeEntry)
    (f : Frame) (h : remain ≠ []) (he : n.entries.getD idx .empty = .frame f) :
    TreeModel.recursive_insert n (idx :: remain) e = n := by
  cases remain with
  | nil => exact absurd rfl h
  | cons b t =>
    show (match n.entries.getD idx .empty with
      | NodeEntry.node child => n.update idx (.node (TreeModel.recursive_insert child (b :: t) e))
      | NodeEntry.empty => n.update idx
          (.node (TreeModel.recursive_insert (PTTreeNode.new n.constants (n.level + 1)) (b :: t) e))
      | _ => n) = _
    rw [he]

theorem tm_insert_nil (n : PTTreeNode) (e : NodeEntry) :
    TreeModel.recursive_insert n [] e = n := rfl

theorem tm_remove_nil (n : PTTreeNode) : TreeModel.recursive_remove n [] = n := rfl

theorem tm_remove_single (n : PTTreeNode) (idx : Nat) :
    TreeModel.recursive_remove n [idx] = n.update idx .empty := rfl

theorem tm_remove_cons_node (n : PTTreeNode) (idx : Nat) (remain : List Nat) (c : PTTreeNode)
    (h : remain ≠ []) (he : n.entries.getD idx .empty = .node c) :
    TreeModel.recursive_remove n (idx :: remain) =
      n.update idx (.node (TreeModel.recursive_remove c remain)) := by
  cases remain with
  | nil => exact absurd rfl h
  | cons b t =>
    show (match n.entries.getD idx .empty with
      | NodeEntry.node child => n.update idx (.node (TreeModel.recursive_remove child (b :: t)))
      | _ => n) = _
    rw [he]

theorem tm_remove_cons_frame (n : PTTreeNode) (idx : Nat) (remain : List Nat) (f : Frame)
    (h : remain ≠ []) (he : n.entries.getD idx .empty = .frame f) :
    TreeModel.recursive_remove n (idx :: remain) = n := by
  cases remain with
  | nil => exact absurd rfl h
  | cons b t =>
    show (match n.entries.getD idx .empty with
      | NodeEntry.node child => n.update idx (.node (TreeModel.recursive_remove child (b :: t)))
      | _ => n) = _
    rw [he]

theorem tm_remove_cons_empty (n : PTTreeNode) (idx : Nat) (remain : List Nat)
    (h : remain ≠ []) (he : n.entries.getD idx .empty = .empty) :
    TreeModel.recursive_remove n (idx :: remain) = n := by
  cases remain with
  | nil => exact absurd rfl h
  | cons b t =>
    show (match n.entries.getD idx .empty with
      | NodeEntry.node child => n.update idx (.node (TreeModel.recursive_remove child (b :: t)))
      | _ => n) = _
    rw [he]

/-- After a `TreeModel::recursive_insert` of a frame whose guard held (the
visit reached `Empty`), visiting the same path reaches the inserted frame at
exactly the path's depth. -/
theorem tm_insert_visit (n : PTTreeNode) (p : List Nat) (f : Frame)
    (hinv : n.invariants = true)
    (hp : PTTreePath.valid p n.constants.arch n.level)
    (hlast : (n.recursive_visit p).getLast? = some .empty) :
    ((TreeModel.recursive_insert n p (.frame f)).recursive_visit p).length = p.length ∧
      ((TreeModel.recursive_insert n p (.frame f)).recursive_visit p).getLast? =
        some (.frame f) := by
  induction p generalizing n with
  | nil => exact absurd hp.1 (by simp)
  | cons idx rem ih =>
    have hidxlt : idx < n.entries.length := by
      have h1 := valid_head rem idx n.constants.arch n.level hp
      have h3 := (invariants_unfold n hinv).2.2.1
      omega
    cases rem with
    | nil =>
      rw [recursive_visit_single] at hlast
      simp only [List.getLast?_singleton, Option.some_inj] at hlast
      rw [tm_insert_single_empty n idx (.frame f) hlast]
      rw [recursive_visit_single]
      constructor
      · simp
      · rw [update_entries, getD_set_self _ _ _ _ hidxlt]
        simp
    | cons b t =>
      cases he : n.entries.getD idx .empty with
      | node child =>
        rw [recursive_visit_cons_node n idx (b :: t) child (by simp) he] at hlast
        have hvne : child.recursive_visit (b :: t) ≠ [] :=
          List.length_pos.mp (visit_length_pos child (b :: t) (List.cons_ne_nil b t))
        rw [getLast?_cons_of_ne_nil _ _ hvne] at hlast
        obtain ⟨hchildinv, hchildlvl, hchildcst⟩ := invariants_child n idx child hinv he
        have hrem : PTTreePath.valid (b :: t) child.constants.arch child.level := by
          rw [hchildcst, hchildlvl]
          exact valid_tail (b :: t) idx n.constants.arch n.level hp (List.cons_ne_nil b t)
        obtain ⟨ihlen, ihlast⟩ := ih child hchildinv hrem hlast
        rw [tm_insert_cons_node n idx (b :: t) (.frame f) child (List.cons_ne_nil b t) he]
        set child' := TreeModel.recursive_insert child (b :: t) (.frame f) with hchild'
        have hset : (n.update idx (.node child')).entries.getD idx .empty = .node child' := by
          rw [update_entries, getD_set_self _ _ _ _ hidxlt]
        rw [recursive_visit_cons_node _ idx (b :: t) child' (List.cons_ne_nil b t) hset]
        have hvne' : child'.recursive_visit (b :: t) ≠ [] :=
          List.length_pos.mp (visit_length_pos child' (b :: t) (List.cons_ne_nil b t))
        constructor
        · simpa using ihlen
        · rw [getLast?_cons_of_ne_nil _ _ hvne']
          exact ihlast
      | frame fr =>
        rw [recursive_visit_cons_frame n idx (b :: t) fr (by simp) he] at hlast
        simp at hlast
      | empty =>
        have hnew : (PTTreeNode.new n.constants (n.level + 1)).invariants = true := by
          apply new_invariants
          · exact (invariants_unfold n hinv).1
          · have := hp.2.1
            simp at this
            omega
        have hnewlast :
            ((PTTreeNode.new n.constants (n.level + 1)).recursive_visit (b :: t)).getLast? =
              some .empty := by
          have hgd : (PTTreeNode.new n.constants (n.level + 1)).entries.getD b .empty =
              .empty := by
            show (List.replicate _ NodeEntry.empty).getD b .empty = .empty
            exact getD_replicate _ _ _
          cases t with
          | nil => rw [recursive_visit_single, hgd]; simp
          | cons c t' =>
            rw [recursive_visit_cons_empty _ b (c :: t') (by simp) hgd]
            simp
        have hrem : PTTreePath.valid (b :: t)
            (PTTreeNode.new n.constants (n.level + 1)).constants.arch
            (PTTreeNode.new n.constants (n.level + 1)).level := by
          show PTTreePath.valid (b :: t) n.constants.arch (n.level + 1)
          exact valid_tail (b :: t) idx n.constants.arch n.level hp (List.cons_ne_nil b t)
        obtain ⟨ihlen, ihlast⟩ := ih (PTTreeNode.new n.constants (n.level + 1)) hnew hrem hnewlast
        rw [tm_insert_cons_empty n idx (b :: t) (.frame f) (List.cons_ne_nil b t) he]
        set child' := TreeModel.recursive_insert (PTTreeNode.new n.constants (n.level + 1))
          (b :: t) (.frame f) with hchild'
        have hset : (n.update idx (.node child')).entries.getD idx .empty = .node child' := by
          rw [update_entries, getD_set_self _ _ _ _ hidxlt]
        rw [recursive_visit_cons_node _ idx (b :: t) child' (List.cons_ne_nil b t) hset]
        have hvne' : child'.recursive_visit (b :: t) ≠ [] :=
          List.length_pos.mp (visit_length_pos child' (b :: t) (List.cons_ne_nil b t))
        constructor
        · simpa using ihlen
        · rw [getLast?_cons_of_ne_nil _ _ hvne']
          exact ihlast

/-- A `TreeModel::recursive_insert` leaves every visit that terminated at a
frame unchanged in termination entry and length (the argument underlying
`lemma_insert_not_affect_other_mappings`). -/
theorem tm_insert_other (n : PTTreeNode) (p : List Nat) (e : NodeEntry) (q : List Nat)
    (f2 : Frame) (hq : (n.recursive_visit q).getLast? = some (.frame f2)) :
    ((TreeModel.recursive_insert n p e).recursive_visit q).getLast? = some (.frame f2) ∧
      ((TreeModel.recursive_insert n p e).recursive_visit q).length =
        (n.recursive_visit q).length := by
  induction p generalizing n q with
  | nil => rw [tm_insert_nil]; exact ⟨hq, rfl⟩
  | cons idx rem ih =>
    cases q with
    | nil => rw [recursive_visit_nil] at hq; simp at hq
    | cons j qrem =>
      cases rem with
      | nil =>
        cases he : n.entries.getD idx .empty with
        | empty =>
          rw [tm_insert_single_empty n idx e he]
          by_cases hj : j = idx
          · subst hj
            exfalso
            cases qrem with
            | nil =>
              rw [recursive_visit_single, he] at hq
              simp at hq
            | cons b t =>
              rw [recursive_visit_cons_empty n j (b :: t) (List.cons_ne_nil b t) he] at hq
              simp at hq
          · have hcongr : (n.update idx e).recursive_visit (j :: qrem) =
                n.recursive_visit (j :: qrem) := by
              apply visit_congr_head
              rw [update_entries, getD_set_ne _ _ _ _ _ (fun hcon => hj hcon.symm)]
            rw [hcongr]
            exact ⟨hq, rfl⟩
        | node c =>
          rw [tm_insert_single_node n idx e c he]
          exact ⟨hq, rfl⟩
        | frame fr =>
          rw [tm_insert_single_frame n idx e fr he]
          exact ⟨hq, rfl⟩
      | cons b t =>
        cases he : n.entries.getD idx .empty with
        | node child =>
          rw [tm_insert_cons_node n idx (b :: t) e child (List.cons_ne_nil b t) he]
          by_cases hj : j = idx
          · subst hj
            have hidxlt : j < n.entries.length :=
              getD_lt_length_of_ne _ _ _ (by rw [he]; simp)
            have hset : (n.update j
                (.node (TreeModel.recursive_insert child (b :: t) e))).entries.getD j .empty =
                .node (TreeModel.recursive_insert child (b :: t) e) := by
              rw [update_entries, getD_set_self _ _ _ _ hidxlt]
            cases qrem with
            | nil =>
              rw [recursive_visit_single, he] at hq
              simp at hq
            | cons c2 t2 =>
              rw [recursive_visit_cons_node n j (c2 :: t2) child (List.cons_ne_nil c2 t2) he]
                at hq
              have hvne : child.recursive_visit (c2 :: t2) ≠ [] :=
                List.length_pos.mp (visit_length_pos child (c2 :: t2) (List.cons_ne_nil c2 t2))
              rw [getLast?_cons_of_ne_nil _ _ hvne] at hq
              obtain ⟨ihl, ihlen⟩ := ih child (c2 :: t2) hq
              rw [recursive_visit_cons_node _ j (c2 :: t2) _ (List.cons_ne_nil c2 t2) hset]
              have hvne' : (TreeModel.recursive_insert child (b :: t) e).recursive_visit
                  (c2 :: t2) ≠ [] :=
                List.length_pos.mp (visit_length_pos _ (c2 :: t2) (List.cons_ne_nil c2 t2))
              constructor
              · rw [getLast?_cons_of_ne_nil _ _ hvne']
                exact ihl
              · rw [recursive_visit_cons_node n j (c2 :: t2) child (List.cons_ne_nil c2 t2) he]
                simpa using ihlen
          · have hcongr : (n.update idx
                (.node (TreeModel.recursive_insert child (b :: t) e))).recursive_visit
                  (j :: qrem) = n.recursive_visit (j :: qrem) := by
              apply visit_congr_head
              rw [update_entries, getD_set_ne _ _ _ _ _ (fun hcon => hj hcon.symm)]
            rw [hcongr]
            exact ⟨hq, rfl⟩
        | empty =>
          rw [tm_insert_cons_empty n idx (b :: t) e (List.cons_ne_nil b t) he]
          by_cases hj : j = idx
          · subst hj
            exfalso
            cases qrem with
            | nil =>
              rw [recursive_visit_single, he] at hq
              simp at hq
            | cons c2 t2 =>
              rw [recursive_visit_cons_empty n j (c2 :: t2) (List.cons_ne_nil c2 t2) he] at hq
              simp at hq
          · have hcongr : (n.update idx
                (.node (TreeModel.recursive_insert (PTTreeNode.new n.constants (n.level + 1))
                  (b :: t) e))).recursive_visit (j :: qrem) =
                n.recursive_visit (j :: qrem) := by
              apply visit_congr_head
              rw [update_entries, getD_set_ne _ _ _ _ _ (fun hcon => hj hcon.symm)]
            rw [hcongr]
            exact ⟨hq, rfl⟩
        | frame fr =>
          rw [tm_insert_cons_frame n idx (b :: t) e fr (List.cons_ne_nil b t) he]
          exact ⟨hq, rfl⟩

/-- After a `TreeModel::recursive_remove` along a path whose visit reached a
frame at exactly the path's depth, the same visit now ends at `Empty` at the
same depth (the argument underlying `lemma_remove_removes_path_mapping`). -/
theorem tm_remove_visit (n : PTTreeNode) (p : List Nat)
    (hlenv : (n.recursive_visit p).length = p.length)
    (hlast : ∃ f, (n.recursive_visit p).getLast? = some (.frame f)) (hne : p ≠ []) :
    ((TreeModel.recursive_remove n p).recursive_visit p).length = p.length ∧
      ((TreeModel.recursive_remove n p).recursive_visit p).getLast? = some .empty := by
  induction p generalizing n with
  | nil => exact absurd rfl hne
  | cons idx rem ih =>
    cases rem with
    | nil =>
      obtain ⟨f, hf⟩ := hlast
      rw [recursive_visit_single] at hf
      simp only [List.getLast?_singleton, Option.some_inj] at hf
      have hidxlt : idx < n.entries.length :=
        getD_lt_length_of_ne _ _ _ (by rw [hf]; simp)
      rw [tm_remove_single]
      rw [recursive_visit_single, update_entries, getD_set_self _ _ _ _ hidxlt]
      simp
    | cons b t =>
      cases he : n.entries.getD idx .empty with
      | node child =>
        obtain ⟨f, hf⟩ := hlast
        rw [recursive_visit_cons_node n idx (b :: t) child (List.cons_ne_nil b t) he]
          at hf hlenv
        have hvne : child.recursive_visit (b :: t) ≠ [] :=
          List.length_pos.mp (visit_length_pos child (b :: t) (List.cons_ne_nil b t))
        rw [getLast?_cons_of_ne_nil _ _ hvne] at hf
        have hlenv' : (child.recursive_visit (b :: t)).length = (b :: t).length := by
          simpa using hlenv
        obtain ⟨ihlen, ihlast⟩ := ih child hlenv' ⟨f, hf⟩ (List.cons_ne_nil b t)
        have hidxlt : idx < n.entries.length :=
          getD_lt_length_of_ne _ _ _ (by rw [he]; simp)
        rw [tm_remove_cons_node n idx (b :: t) child (List.cons_ne_nil b t) he]
        have hset : (n.update idx
            (.node (TreeModel.recursive_remove child (b :: t)))).entries.getD idx .empty =
            .node (TreeModel.recursive_remove child (b :: t)) := by
          rw [update_entries, getD_set_self _ _ _ _ hidxlt]
        rw [recursive_visit_cons_node _ idx (b :: t) _ (List.cons_ne_nil b t) hset]
        have hvne' : (TreeModel.recursive_remove child (b :: t)).recursive_visit (b :: t) ≠ [] :=
          List.length_pos.mp (visit_length_pos _ (b :: t) (List.cons_ne_nil b t))
        constructor
        · simpa using ihlen
        · rw [getLast?_cons_of_ne_nil _ _ hvne']
          exact ihlast
      | frame f =>
        rw [recursive_visit_cons_frame n idx (b :: t) f (List.cons_ne_nil b t) he] at hlenv
        simp at hlenv
      | empty =>
        rw [recursive_visit_cons_empty n idx (b :: t) (List.cons_ne_nil b t) he] at hlenv
        simp at hlenv

/-! ## Model-level lemmas for `map`, `unmap`, `query` -/

theorem tm_insert_constants (n : PTTreeNode) (p : List Nat) (e : NodeEntry) :
    (TreeModel.recursive_insert n p e).constants = n.constants ∧
      (TreeModel.recursive_insert n p e).level = n.level := by
  cases p with
  | nil => rw [tm_insert_nil]; exact ⟨rfl, rfl⟩
  | cons idx rem =>
    cases rem with
    | nil =>
      cases he : n.entries.getD idx .empty with
      | node c => rw [tm_insert_single_node n idx e c he]; exact ⟨rfl, rfl⟩
      | frame f => rw [tm_insert_single_frame n idx e f he]; exact ⟨rfl, rfl⟩
      | empty => rw [tm_insert_single_empty n idx e he]; exact ⟨rfl, rfl⟩
    | cons b t =>
      cases he : n.entries.getD idx .empty with
      | node c =>
        rw [tm_insert_cons_node n idx (b :: t) e c (List.cons_ne_nil b t) he]
        exact ⟨rfl, rfl⟩
      | frame f =>
        rw [tm_insert_cons_frame n idx (b :: t) e f (List.cons_ne_nil b t) he]
        exact ⟨rfl, rfl⟩
      | empty =>
        rw [tm_insert_cons_empty n idx (b :: t) e (List.cons_ne_nil b t) he]
        exact ⟨rfl, rfl⟩

theorem tm_remove_constants (n : PTTreeNode) (p : List Nat) :
    (TreeModel.recursive_remove n p).constants = n.constants ∧
      (TreeModel.recursive_remove n p).level = n.level := by
  cases p with
  | nil => rw [tm_remove_nil]; exact ⟨rfl, rfl⟩
  | cons idx rem =>
    cases rem with
    | nil => rw [tm_remove_single]; exact ⟨rfl, rfl⟩
    | cons b t =>
      cases he : n.entries.getD idx .empty with
      | node c =>
        rw [tm_remove_cons_node n idx (b :: t) c (List.cons_ne_nil b t) he]
        exact ⟨rfl, rfl⟩
      | frame f =>
        rw [tm_remove_cons_frame n idx (b :: t) f (List.cons_ne_nil b t) he]
        exact ⟨rfl, rfl⟩
      | empty =>
        rw [tm_remove_cons_empty n idx (b :: t) (List.cons_ne_nil b t) he]
        exact ⟨rfl, rfl⟩

/-- Unpack a successful `PTTreeModel::map`: the guard saw `Empty` and the new
root is the insertion result. -/
theorem map_some_elim (m : PTTreeModel) (vbase : Nat) (frame : Frame) (m' : PTTreeModel)
    (hmap : m.map vbase frame = some m') :
    (m.root.recursive_visit (PTTreePath.from_vaddr vbase m.arch
        (m.arch.level_of_frame_size frame.size))).getLast? = some .empty ∧
      m'.root = TreeModel.recursive_insert m.root
        (PTTreePath.from_vaddr vbase m.arch (m.arch.level_of_frame_size frame.size))
        (.frame frame) := by
  simp only [PTTreeModel.map] at hmap
  cases hv : (m.root.recursive_visit (PTTreePath.from_vaddr vbase m.arch
      (m.arch.level_of_frame_size frame.size))).getLast? with
  | none => rw [hv] at hmap; simp at hmap
  | some e =>
    cases e with
    | node c => rw [hv] at hmap; simp at hmap
    | frame f => rw [hv] at hmap; simp at hmap
    | empty =>
      rw [hv] at hmap
      simp only [Option.some_inj] at hmap
      exact ⟨rfl, by rw [← hmap]⟩

/-- After a successful `map(vbase, frame)` with aligned `vbase` and a
supported frame size, `query(vbase)` returns `Ok(vbase, frame)`. -/
theorem query_after_map (m : PTTreeModel) (vbase : Nat) (frame : Frame) (m' : PTTreeModel)
    (hinv : m.invariants) (hsz : m.arch.is_valid_frame_size frame.size)
    (halign : vbase % frame.size = 0)
    (hmap : m.map vbase frame = some m') :
    m'.query vbase = some (vbase, frame) := by
  obtain ⟨hlvl0, hrootinv⟩ := hinv
  obtain ⟨hguard, hroot⟩ := map_some_elim m vbase frame m' hmap
  have harch : m.root.constants.arch.valid := (invariants_unfold m.root hrootinv).1
  obtain ⟨hLlt, hLfs⟩ := level_of_frame_size_spec m.arch frame.size hsz
  set L := m.arch.level_of_frame_size frame.size with hL
  set p := PTTreePath.from_vaddr vbase m.arch L with hpdef
  have hpvalid : PTTreePath.valid p m.root.constants.arch m.root.level := by
    rw [hlvl0]
    exact from_vaddr_valid m.arch harch vbase L hLlt
  obtain ⟨hvlen, hvlast⟩ := tm_insert_visit m.root p frame hrootinv hpvalid hguard
  have harch' : m'.root.constants = m.root.constants := by
    rw [hroot]; exact (tm_insert_constants _ _ _).1
  have harcheq : m'.arch = m.arch := by
    show m'.root.constants.arch = m.root.constants.arch
    rw [harch']
  have hpre : p <+: PTTreePath.from_vaddr vbase m.arch (m.arch.level_count - 1) := by
    rw [hpdef]
    exact from_vaddr_take vbase m.arch L (m.arch.level_count - 1) (by omega)
  have hpne : p ≠ [] := by
    rw [hpdef]
    unfold PTTreePath.from_vaddr
    simp
  have hlen' : ((m'.root).recursive_visit p).length = p.length := by rw [hroot]; exact hvlen
  have hlast' : ((m'.root).recursive_visit p).getLast? = some (.frame frame) := by
    rw [hroot]; exact hvlast
  have hext := visit_extend m'.root p
    (PTTreePath.from_vaddr vbase m.arch (m.arch.level_count - 1)) hpre hpne hlen'
    (fun c hcon => by rw [hlast'] at hcon; simp at hcon)
  have hfull : m'.root.recursive_visit
      (PTTreePath.from_vaddr vbase m'.arch (m'.arch.level_count - 1)) =
      m'.root.recursive_visit p := by
    rw [harcheq]; exact hext
  have hplen : p.length = L + 1 := by rw [hpdef]; exact from_vaddr_length vbase m.arch L
  have hvb : m'.arch.vbase_of_va vbase (((m'.root).recursive_visit p).length - 1) = vbase := by
    rw [hlen', hplen, harcheq]
    show m.arch.vbase_of_va vbase (L + 1 - 1) = vbase
    have harg : L + 1 - 1 = L := by omega
    rw [harg, PTArch.vbase_of_va, hLfs]
    exact Nat.div_mul_cancel (Nat.dvd_of_mod_eq_zero halign)
  simp only [PTTreeModel.query]
  rw [hfull, hlast']
  show some (m'.arch.vbase_of_va vbase (((m'.root).recursive_visit p).length - 1), frame) =
    some (vbase, frame)
  rw [hvb]

/-- Unpack a successful `PTTreeModel::query`. -/
theorem query_some_elim (mm : PTTreeModel) (b2 : Nat) (res : Nat × Frame)
    (h : mm.query b2 = some res) :
    ∃ f2, (mm.root.recursive_visit (PTTreePath.from_vaddr b2 mm.arch
        (mm.arch.level_count - 1))).getLast? = some (.frame f2) ∧
      res = (mm.arch.vbase_of_va b2
        ((mm.root.recursive_visit (PTTreePath.from_vaddr b2 mm.arch
          (mm.arch.level_count - 1))).length - 1), f2) := by
  simp only [PTTreeModel.query] at h
  cases hv : (mm.root.recursive_visit (PTTreePath.from_vaddr b2 mm.arch
      (mm.arch.level_count - 1))).getLast? with
  | none => rw [hv] at h; simp at h
  | some e =>
    cases e with
    | node c => rw [hv] at h; simp at h
    | frame f => rw [hv] at h; simp at h; exact ⟨f, rfl, h.symm⟩
    | empty => rw [hv] at h; simp at h

/-- A successful `map` leaves every earlier successful `query` result intact.
-/
theorem query_preserved_after_map (m : PTTreeModel) (vbase : Nat) (frame : Frame)
    (m' : PTTreeModel) (b2 : Nat) (res : Nat × Frame)
    (hmap : m.map vbase frame = some m') (hq : m.query b2 = some res) :
    m'.query b2 = some res := by
  obtain ⟨hguard, hroot⟩ := map_some_elim m vbase frame m' hmap
  obtain ⟨f2, hlast, hres⟩ := query_some_elim m b2 res hq
  have harch' : m'.root.constants = m.root.constants := by
    rw [hroot]; exact (tm_insert_constants _ _ _).1
  have harcheq : m'.arch = m.arch := by
    show m'.root.constants.arch = m.root.constants.arch
    rw [harch']
  set q := PTTreePath.from_vaddr b2 m.arch (m.arch.level_count - 1) with hqdef
  obtain ⟨hlast', hlen'⟩ := tm_insert_other m.root
    (PTTreePath.from_vaddr vbase m.arch (m.arch.level_of_frame_size frame.size))
    (.frame frame) q f2 hlast
  rw [← hroot] at hlast' hlen'
  simp only [PTTreeModel.query]
  rw [harcheq, ← hqdef, hlast']
  show some (m.arch.vbase_of_va b2 ((m'.root.recursive_visit q).length - 1), f2) = some res
  rw [hlen', hres]

/-- After a successful `map(vbase, frame)`, `unmap(vbase)` succeeds and a
subsequent `query(vbase)` misses. -/
theorem unmap_after_map (m : PTTreeModel) (vbase : Nat) (frame : Frame) (m' : PTTreeModel)
    (hinv : m.invariants) (hsz : m.arch.is_valid_frame_size frame.size)
    (halign : vbase % frame.size = 0)
    (hmap : m.map vbase frame = some m') :
    ∃ m'', m'.unmap vbase = some m'' ∧ m''.query vbase = none := by
  obtain ⟨hlvl0, hrootinv⟩ := hinv
  obtain ⟨hguard, hroot⟩ := map_some_elim m vbase frame m' hmap
  have harch : m.root.constants.arch.valid := (invariants_unfold m.root hrootinv).1
  obtain ⟨hLlt, hLfs⟩ := level_of_frame_size_spec m.arch frame.size hsz
  set L := m.arch.level_of_frame_size frame.size with hL
  set p := PTTreePath.from_vaddr vbase m.arch L with hpdef
  have hpvalid : PTTreePath.valid p m.root.constants.arch m.root.level := by
    rw [hlvl0]
    exact from_vaddr_valid m.arch harch vbase L hLlt
  obtain ⟨hvlen, hvlast⟩ := tm_insert_visit m.root p frame hrootinv hpvalid hguard
  have harch' : m'.root.constants = m.root.constants := by
    rw [hroot]; exact (tm_insert_constants _ _ _).1
  have harcheq : m'.arch = m.arch := by
    show m'.root.constants.arch = m.root.constants.arch
    rw [harch']
  have hq := query_after_map m vbase frame m' ⟨hlvl0, hrootinv⟩ hsz halign hmap
  have hlen' : ((m'.root).recursive_visit p).length = p.length := by rw [hroot]; exact hvlen
  have hlast' : ((m'.root).recursive_visit p).getLast? = some (.frame frame) := by
    rw [hroot]; exact hvlast
  -- the unmap removes along the same path `p`
  refine ⟨⟨TreeModel.recursive_remove m'.root p⟩, ?_, ?_⟩
  · simp only [PTTreeModel.unmap]
    rw [hq]
    simp only [Option.some_inj]
    rw [hpdef, hL, harcheq]
  · set m'' : PTTreeModel := ⟨TreeModel.recursive_remove m'.root p⟩ with hm''
    have hc'' : m''.root.constants = m.root.constants := by
      show (TreeModel.recursive_remove m'.root p).constants = m.root.constants
      rw [(tm_remove_constants _ _).1, harch']
    have harcheq'' : m''.arch = m.arch := by
      show m''.root.constants.arch = m.root.constants.arch
      rw [hc'']
    obtain ⟨hrlen, hrlast⟩ := tm_remove_visit m'.root p hlen' ⟨frame, hlast'⟩
      (by rw [hpdef]; unfold PTTreePath.from_vaddr; simp)
    have hpre : p <+: PTTreePath.from_vaddr vbase m.arch (m.arch.level_count - 1) := by
      rw [hpdef]
      exact from_vaddr_take vbase m.arch L (m.arch.level_count - 1) (by omega)
    have hpne : p ≠ [] := by
      rw [hpdef]; unfold PTTreePath.from_vaddr; simp
    have hext := visit_extend m''.root p
      (PTTreePath.from_vaddr vbase m.arch (m.arch.level_count - 1)) hpre hpne hrlen
      (fun c hcon => by
        have : (m''.root.recursive_visit p).getLast? = some .empty := hrlast
        rw [this] at hcon; simp at hcon)
    simp only [PTTreeModel.query]
    rw [harcheq'', hext]
    have : (m''.root.recursive_visit p).getLast? = some .empty := hrlast
    rw [this]

/-! Equation lemmas for `PTTreeNode.recursive_insert` / `recursive_remove`. -/

theorem n_insert_nil (n : PTTreeNode) (f : Frame) :
    n.recursive_insert [] f = (n, .Err) := rfl

theorem n_insert_single_empty (n : PTTreeNode) (idx : Nat) (f : Frame)
    (he : n.entries.getD idx .empty = .empty) :
    n.recursive_insert [idx] f = (n.update idx (.frame f), .Ok) := by
  show (match n.entries.getD idx .empty with
    | NodeEntry.empty => (n.update idx (.frame f), PagingResult.Ok)
    | _ => (n, PagingResult.Err)) = _
  rw [he]

theorem n_insert_single_node (n : PTTreeNode) (idx : Nat) (f : Frame) (c : PTTreeNode)
    (he : n.entries.getD idx .empty = .node c) :
    n.recursive_insert [idx] f = (n, .Err) := by
  show (match n.entries.getD idx .empty with
    | NodeEntry.empty => (n.update idx (.frame f), PagingResult.Ok)
    | _ => (n, PagingResult.Err)) = _
  rw [he]

theorem n_insert_single_frame (n : PTTreeNode) (idx : Nat) (f : Frame) (fr : Frame)
    (he : n.entries.getD idx .empty = .frame fr) :
    n.recursive_insert [idx] f = (n, .Err) := by
  show (match n.entries.getD idx .empty with
    | NodeEntry.empty => (n.update idx (.frame f), PagingResult.Ok)
    | _ => (n, PagingResult.Err)) = _
  rw [he]

theorem n_insert_cons_node (n : PTTreeNode) (idx : Nat) (remain : List Nat) (f : Frame)
    (c : PTTreeNode) (h : remain ≠ []) (he : n.entries.getD idx .empty = .node c) :
    n.recursive_insert (idx :: remain) f =
      ((n.update idx (.node (c.recursive_insert remain f).1)),
        (c.recursive_insert remain f).2) := by
  cases remain with
  | nil => exact absurd rfl h
  | cons b t =>
    show (match n.entries.getD idx .empty with
      | NodeEntry.node child =>
        let r := child.recursive_insert (b :: t) f
        (n.update idx (.node r.1), r.2)
      | NodeEntry.empty =>
        let r := (PTTreeNode.new n.constants (n.level + 1)).recursive_insert (b :: t) f
        (n.update idx (.node r.1), r.2)
      | _ => (n, PagingResult.Err)) = _
    rw [he]

theorem n_insert_cons_empty (n : PTTreeNode) (idx : Nat) (remain : List Nat) (f : Frame)
    (h : remain ≠ []) (he : n.entries.getD idx .empty = .empty) :
    n.recursive_insert (idx :: remain) f =
      ((n.update idx (.node ((PTTreeNode.new n.constants (n.level + 1)).recursive_insert
        remain f).1)),
        ((PTTreeNode.new n.constants (n.level + 1)).recursive_insert remain f).2) := by
  cases remain with
  | nil => exact absurd rfl h
  | cons b t =>
    show (match n.entries.getD idx .empty with
      | NodeEntry.node child =>
        let r := child.recursive_insert (b :: t) f
        (n.update idx (.node r.1), r.2)
      | NodeEntry.empty =>
        let r := (PTTreeNode.new n.constants (n.level + 1)).recursive_insert (b :: t) f
        (n.update idx (.node r.1), r.2)
      | _ => (n, PagingResult.Err)) = _
    rw [he]

theorem n_insert_cons_frame (n : PTTreeNode) (idx : Nat) (remain : List Nat) (f : Frame)
    (fr : Frame) (h : remain ≠ []) (he : n.entries.getD idx .empty = .frame fr) :
    n.recursive_insert (idx :: remain) f = (n, .Err) := by
  cases remain with
  | nil => exact absurd rfl h
  | cons b t =>
    show (match n.entries.getD idx .empty with
      | NodeEntry.node child =>
        let r := child.recursive_insert (b :: t) f
        (n.update idx (.node r.1), r.2)
      | NodeEntry.empty =>
        let r := (PTTreeNode.new n.constants (n.level + 1)).recursive_insert (b :: t) f
        (n.update idx (.node r.1), r.2)
      | _ => (n, PagingResult.Err)) = _
    rw [he]

theorem n_remove_nil (n : PTTreeNode) : n.recursive_remove [] = (n, .Err) := rfl

theorem n_remove_single_frame (n : PTTreeNode) (idx : Nat) (fr : Frame)
    (he : n.entries.getD idx .empty = .frame fr) :
    n.recursive_remove [idx] = (n.update idx .empty, .Ok) := by
  show (match n.entries.getD idx .empty with
    | NodeEntry.frame _ => (n.update idx .empty, PagingResult.Ok)
    | _ => (n, PagingResult.Err)) = _
  rw [he]

theorem n_remove_single_node (n : PTTreeNode) (idx : Nat) (c : PTTreeNode)
    (he : n.entries.getD idx .empty = .node c) :
    n.recursive_remove [idx] = (n, .Err) := by
  show (match n.entries.getD idx .empty with
    | NodeEntry.frame _ => (n.update idx .empty, PagingResult.Ok)
    | _ => (n, PagingResult.Err)) = _
  rw [he]

theorem n_remove_single_empty (n : PTTreeNode) (idx : Nat)
    (he : n.entries.getD idx .empty = .empty) :
    n.recursive_remove [idx] = (n, .Err) := by
  show (match n.entries.getD idx .empty with
    | NodeEntry.frame _ => (n.update idx .empty, PagingResult.Ok)
    | _ => (n, PagingResult.Err)) = _
  rw [he]

theorem n_remove_cons_node (n : PTTreeNode) (idx : Nat) (remain : List Nat) (c : PTTreeNode)
    (h : remain ≠ []) (he : n.entries.getD idx .empty = .node c) :
    n.recursive_remove (idx :: remain) =
      ((n.update idx (.node (c.recursive_remove remain).1)), (c.recursive_remove remain).2) := by
  cases remain with
  | nil => exact absurd rfl h
  | cons b t =>
    show (match n.entries.getD idx .empty with
      | NodeEntry.node child =>
        let r := child.recursive_remove (b :: t)
        (n.update idx (.node r.1), r.2)
      | NodeEntry.frame _ =>
        if (b :: t).all (· == 0) then (n.update idx .empty, PagingResult.Ok)
        else (n, PagingResult.Err)
      | NodeEntry.empty => (n, PagingResult.Err)) = _
    rw [he]

theorem n_remove_cons_frame (n : PTTreeNode) (idx : Nat) (remain : List Nat) (fr : Frame)
    (h : remain ≠ []) (he : n.entries.getD idx .empty = .frame fr) :
    n.recursive_remove (idx :: remain) =
      (if remain.all (· == 0) then (n.update idx .empty, PagingResult.Ok)
        else (n, PagingResult.Err)) := by
  cases remain with
  | nil => exact absurd rfl h
  | cons b t =>
    show (match n.entries.getD idx .empty with
      | NodeEntry.node child =>
        let r := child.recursive_remove (b :: t)
        (n.update idx (.node r.1), r.2)
      | NodeEntry.frame _ =>
        if (b :: t).all (· == 0) then (n.update idx .empty, PagingResult.Ok)
        else (n, PagingResult.Err)
      | NodeEntry.empty => (n, PagingResult.Err)) = _
    rw [he]

theorem n_remove_cons_empty (n : PTTreeNode) (idx : Nat) (remain : List Nat)
    (h : remain ≠ []) (he : n.entries.getD idx .empty = .empty) :
    n.recursive_remove (idx :: remain) = (n, .Err) := by
  cases remain with
  | nil => exact absurd rfl h
  | cons b t =>
    show (match n.entries.getD idx .empty with
      | NodeEntry.node child =>
        let r := child.recursive_remove (b :: t)
        (n.update idx (.node r.1), r.2)
      | NodeEntry.frame _ =>
        if (b :: t).all (· == 0) then (n.update idx .empty, PagingResult.Ok)
        else (n, PagingResult.Err)
      | NodeEntry.empty => (n, PagingResult.Err)) = _
    rw [he]

theorem entryChildInv_node (c : PTTreeNode) : entryChildInv (.node c) = c.invariants := by
  rw [entryChildInv]

theorem entryChildInv_frame (f : Frame) : entryChildInv (.frame f) = true := by
  rw [entryChildInv]; simp

theorem entryChildInv_empty : entryChildInv .empty = true := by
  rw [entryChildInv]; simp

theorem is_entry_valid_node_intro (c : PTTreeNode) (level : Nat) (constants : PTConstants)
    (h1 : level < constants.arch.level_count - 1) (h2 : c.level = level + 1)
    (h3 : c.constants = constants) :
    PTTreeNode.is_entry_valid (.node c) level constants = true := by
  simp [PTTreeNode.is_entry_valid, h1, h2, h3]

theorem n_insert_constants (n : PTTreeNode) (p : List Nat) (f : Frame) :
    (n.recursive_insert p f).1.constants = n.constants ∧
      (n.recursive_insert p f).1.level = n.level := by
  cases p with
  | nil => rw [n_insert_nil]; exact ⟨rfl, rfl⟩
  | cons idx rem =>
    cases rem with
    | nil =>
      cases he : n.entries.getD idx .empty with
      | node c => rw [n_insert_single_node n idx f c he]; exact ⟨rfl, rfl⟩
      | frame fr => rw [n_insert_single_frame n idx f fr he]; exact ⟨rfl, rfl⟩
      | empty => rw [n_insert_single_empty n idx f he]; exact ⟨rfl, rfl⟩
    | cons b t =>
      cases he : n.entries.getD idx .empty with
      | node c =>
        rw [n_insert_cons_node n idx (b :: t) f c (List.cons_ne_nil b t) he]
        exact ⟨rfl, rfl⟩
      | frame fr =>
        rw [n_insert_cons_frame n idx (b :: t) f fr (List.cons_ne_nil b t) he]
        exact ⟨rfl, rfl⟩
      | empty =>
        rw [n_insert_cons_empty n idx (b :: t) f (List.cons_ne_nil b t) he]
        exact ⟨rfl, rfl⟩

theorem n_remove_constants (n : PTTreeNode) (p : List Nat) :
    (n.recursive_remove p).1.constants = n.constants ∧
      (n.recursive_remove p).1.level = n.level := by
  cases p with
  | nil => rw [n_remove_nil]; exact ⟨rfl, rfl⟩
  | cons idx rem =>
    cases rem with
    | nil =>
      cases he : n.entries.getD idx .empty with
      | node c => rw [n_remove_single_node n idx c he]; exact ⟨rfl, rfl⟩
      | frame fr => rw [n_remove_single_frame n idx fr he]; exact ⟨rfl, rfl⟩
      | empty => rw [n_remove_single_empty n idx he]; exact ⟨rfl, rfl⟩
    | cons b t =>
      cases he : n.entries.getD idx .empty with
      | node c =>
        rw [n_remove_cons_node n idx (b :: t) c (List.cons_ne_nil b t) he]
        exact ⟨rfl, rfl⟩
      | frame fr =>
        rw [n_remove_cons_frame n idx (b :: t) fr (List.cons_ne_nil b t) he]
        by_cases hz : (b :: t).all (· == 0)
        · rw [if_pos hz]; exact ⟨rfl, rfl⟩
        · rw [if_neg hz]; exact ⟨rfl, rfl⟩
      | empty =>
        rw [n_remove_cons_empty n idx (b :: t) (List.cons_ne_nil b t) he]
        exact ⟨rfl, rfl⟩

/-- `PTTreeNode::recursive_insert` preserves the invariants
(`lemma_insert_preserves_invariants` in `node.rs`). -/
theorem n_insert_invariants (n : PTTreeNode) (p : List Nat) (f : Frame)
    (hinv : n.invariants = true)
    (hp : PTTreePath.valid p n.constants.arch n.level)
    (hframe : PTTreeNode.is_entry_valid (.frame f) (n.level + p.length - 1)
      n.constants = true) :
    (n.recursive_insert p f).1.invariants = true := by
  induction p generalizing n with
  | nil => rw [n_insert_nil]; exact hinv
  | cons idx rem ih =>
    cases rem with
    | nil =>
      cases he : n.entries.getD idx .empty with
      | node c => rw [n_insert_single_node n idx f c he]; exact hinv
      | frame fr => rw [n_insert_single_frame n idx f fr he]; exact hinv
      | empty =>
        rw [n_insert_single_empty n idx f he]
        apply update_invariants n idx _ hinv
        · have harg : n.level + [idx].length - 1 = n.level := by simp
          rw [harg] at hframe
          exact hframe
        · rw [entryChildInv_frame]
    | cons b t =>
      have hlc : n.level < n.constants.arch.level_count - 1 := by
        have h1 := hp.2.1
        simp only [List.length_cons] at h1
        omega
      cases he : n.entries.getD idx .empty with
      | node child =>
        rw [n_insert_cons_node n idx (b :: t) f child (List.cons_ne_nil b t) he]
        obtain ⟨hchildinv, hchildlvl, hchildcst⟩ := invariants_child n idx child hinv he
        have hrem : PTTreePath.valid (b :: t) child.constants.arch child.level := by
          rw [hchildcst, hchildlvl]
          exact valid_tail (b :: t) idx n.constants.arch n.level hp (List.cons_ne_nil b t)
        have hframe' : PTTreeNode.is_entry_valid (.frame f)
            (child.level + (b :: t).length - 1) child.constants = true := by
          rw [hchildcst, hchildlvl]
          have harg : n.level + 1 + (b :: t).length - 1 =
              n.level + (idx :: b :: t).length - 1 := by simp; omega
          rw [harg]
          exact hframe
        have hrec := ih child hchildinv hrem hframe'
        apply update_invariants n idx _ hinv
        · apply is_entry_valid_node_intro _ _ _ hlc
          · rw [(n_insert_constants child (b :: t) f).2, hchildlvl]
          · rw [(n_insert_constants child (b :: t) f).1, hchildcst]
        · rw [entryChildInv_node]
          exact hrec
      | frame fr =>
        rw [n_insert_cons_frame n idx (b :: t) f fr (List.cons_ne_nil b t) he]
        exact hinv
      | empty =>
        rw [n_insert_cons_empty n idx (b :: t) f (List.cons_ne_nil b t) he]
        have hnewinv : (PTTreeNode.new n.constants (n.level + 1)).invariants = true := by
          apply new_invariants
          · exact (invariants_unfold n hinv).1
          · omega
        have hrem : PTTreePath.valid (b :: t)
            (PTTreeNode.new n.constants (n.level + 1)).constants.arch
            (PTTreeNode.new n.constants (n.level + 1)).level := by
          show PTTreePath.valid (b :: t) n.constants.arch (n.level + 1)
          exact valid_tail (b :: t) idx n.constants.arch n.level hp (List.cons_ne_nil b t)
        have hframe' : PTTreeNode.is_entry_valid (.frame f)
            ((PTTreeNode.new n.constants (n.level + 1)).level + (b :: t).length - 1)
            (PTTreeNode.new n.constants (n.level + 1)).constants = true := by
          show PTTreeNode.is_entry_valid (.frame f) (n.level + 1 + (b :: t).length - 1)
            n.constants = true
          have harg : n.level + 1 + (b :: t).length - 1 =
              n.level + (idx :: b :: t).length - 1 := by simp; omega
          rw [harg]
          exact hframe
        have hrec := ih (PTTreeNode.new n.constants (n.level + 1)) hnewinv hrem hframe'
        apply update_invariants n idx _ hinv
        · apply is_entry_valid_node_intro _ _ _ hlc
          · rw [(n_insert_constants _ (b :: t) f).2]; rfl
          · rw [(n_insert_constants _ (b :: t) f).1]; rfl
        · rw [entryChildInv_node]
          exact hrec

/-- `PTTreeNode::recursive_remove` preserves the invariants
(`lemma_remove_preserves_invariants` in `node.rs`). -/
theorem n_remove_invariants (n : PTTreeNode) (p : List Nat)
    (hinv : n.invariants = true)
    (hp : PTTreePath.valid p n.constants.arch n.level) :
    (n.recursive_remove p).1.invariants = true := by
  induction p generalizing n with
  | nil => rw [n_remove_nil]; exact hinv
  | cons idx rem ih =>
    cases rem with
    | nil =>
      cases he : n.entries.getD idx .empty with
      | node c => rw [n_remove_single_node n idx c he]; exact hinv
      | empty => rw [n_remove_single_empty n idx he]; exact hinv
      | frame fr =>
        rw [n_remove_single_frame n idx fr he]
        apply update_invariants n idx _ hinv
        · rfl
        · rw [entryChildInv_empty]
    | cons b t =>
      cases he : n.entries.getD idx .empty with
      | node child =>
        rw [n_remove_cons_node n idx (b :: t) child (List.cons_ne_nil b t) he]
        obtain ⟨hchildinv, hchildlvl, hchildcst⟩ := invariants_child n idx child hinv he
        have hrem : PTTreePath.valid (b :: t) child.constants.arch child.level := by
          rw [hchildcst, hchildlvl]
          exact valid_tail (b :: t) idx n.constants.arch n.level hp (List.cons_ne_nil b t)
        have hrec := ih child hchildinv hrem
        have hlc : n.level < n.constants.arch.level_count - 1 := by
          have h1 := hp.2.1
          simp only [List.length_cons] at h1
          omega
        apply update_invariants n idx _ hinv
        · apply is_entry_valid_node_intro _ _ _ hlc
          · rw [(n_remove_constants child (b :: t)).2, hchildlvl]
          · rw [(n_remove_constants child (b :: t)).1, hchildcst]
        · rw [entryChildInv_node]
          exact hrec
      | frame fr =>
        rw [n_remove_cons_frame n idx (b :: t) fr (List.cons_ne_nil b t) he]
        by_cases hz : (b :: t).all (· == 0)
        · rw [if_pos hz]
          apply update_invariants n idx _ hinv
          · rfl
          · rw [entryChildInv_empty]
        · rw [if_neg hz]; exact hinv
      | empty =>
        rw [n_remove_cons_empty n idx (b :: t) (List.cons_ne_nil b t) he]
        exact hinv

/-- `TreeModel::recursive_insert` preserves the invariants
(`lemma_recursive_insert_preserves_invariants` in `tree.rs`). -/
theorem tm_insert_invariants (n : PTTreeNode) (p : List Nat) (e : NodeEntry)
    (hinv : n.invariants = true)
    (hp : PTTreePath.valid p n.constants.arch n.level)
    (hentry : PTTreeNode.is_entry_valid e (n.level + p.length - 1) n.constants = true)
    (hchild : entryChildInv e = true) :
    (TreeModel.recursive_insert n p e).invariants = true := by
  induction p generalizing n with
  | nil => rw [tm_insert_nil]; exact hinv
  | cons idx rem ih =>
    cases rem with
    | nil =>
      cases he : n.entries.getD idx .empty with
      | node c => rw [tm_insert_single_node n idx e c he]; exact hinv
      | frame fr => rw [tm_insert_single_frame n idx e fr he]; exact hinv
      | empty =>
        rw [tm_insert_single_empty n idx e he]
        apply update_invariants n idx _ hinv
        · have harg : n.level + [idx].length - 1 = n.level := by simp
          rw [harg] at hentry
          exact hentry
        · exact hchild
    | cons b t =>
      have hlc : n.level < n.constants.arch.level_count - 1 := by
        have h1 := hp.2.1
        simp only [List.length_cons] at h1
        omega
      cases he : n.entries.getD idx .empty with
      | node child =>
        rw [tm_insert_cons_node n idx (b :: t) e child (List.cons_ne_nil b t) he]
        obtain ⟨hchildinv, hchildlvl, hchildcst⟩ := invariants_child n idx child hinv he
        have hrem : PTTreePath.valid (b :: t) child.constants.arch child.level := by
          rw [hchildcst, hchildlvl]
          exact valid_tail (b :: t) idx n.constants.arch n.level hp (List.cons_ne_nil b t)
        have hentry' : PTTreeNode.is_entry_valid e
            (child.level + (b :: t).length - 1) child.constants = true := by
          rw [hchildcst, hchildlvl]
          have harg : n.level + 1 + (b :: t).length - 1 =
              n.level + (idx :: b :: t).length - 1 := by simp; omega
          rw [harg]
          exact hentry
        have hrec := ih child hchildinv hrem hentry'
        apply update_invariants n idx _ hinv
        · apply is_entry_valid_node_intro _ _ _ hlc
          · rw [(tm_insert_constants child (b :: t) e).2, hchildlvl]
          · rw [(tm_insert_constants child (b :: t) e).1, hchildcst]
        · rw [entryChildInv_node]
          exact hrec
      | frame fr =>
        rw [tm_insert_cons_frame n idx (b :: t) e fr (List.cons_ne_nil b t) he]
        exact hinv
      | empty =>
        rw [tm_insert_cons_empty n idx (b :: t) e (List.cons_ne_nil b t) he]
        have hnewinv : (PTTreeNode.new n.constants (n.level + 1)).invariants = true := by
          apply new_invariants
          · exact (invariants_unfold n hinv).1
          · omega
        have hrem : PTTreePath.valid (b :: t)
            (PTTreeNode.new n.constants (n.level + 1)).constants.arch
            (PTTreeNode.new n.constants (n.level + 1)).level := by
          show PTTreePath.valid (b :: t) n.constants.arch (n.level + 1)
          exact valid_tail (b :: t) idx n.constants.arch n.level hp (List.cons_ne_nil b t)
        have hentry' : PTTreeNode.is_entry_valid e
            ((PTTreeNode.new n.constants (n.level + 1)).level + (b :: t).length - 1)
            (PTTreeNode.new n.constants (n.level + 1)).constants = true := by
          show PTTreeNode.is_entry_valid e (n.level + 1 + (b :: t).length - 1)
            n.constants = true
          have harg : n.level + 1 + (b :: t).length - 1 =
              n.level + (idx :: b :: t).length - 1 := by simp; omega
          rw [harg]
          exact hentry
        have hrec := ih (PTTreeNode.new n.constants (n.level + 1)) hnewinv hrem hentry'
        apply update_invariants n idx _ hinv
        · apply is_entry_valid_node_intro _ _ _ hlc
          · rw [(tm_insert_constants _ (b :: t) e).2]; rfl
          · rw [(tm_insert_constants _ (b :: t) e).1]; rfl
        · rw [entryChildInv_node]
          exact hrec

/-- `TreeModel::recursive_remove` preserves the invariants
(`lemma_recursive_remove_preserves_invariants` in `tree.rs`). -/
theorem tm_remove_invariants (n : PTTreeNode) (p : List Nat)
    (hinv : n.invariants = true)
    (hp : PTTreePath.valid p n.constants.arch n.level) :
    (TreeModel.recursive_remove n p).invariants = true := by
  induction p generalizing n with
  | nil => rw [tm_remove_nil]; exact hinv
  | cons idx rem ih =>
    cases rem with
    | nil =>
      rw [tm_remove_single]
      apply update_invariants n idx _ hinv
      · rfl
      · rw [entryChildInv_empty]
    | cons b t =>
      cases he : n.entries.getD idx .empty with
      | node child =>
        rw [tm_remove_cons_node n idx (b :: t) child (List.cons_ne_nil b t) he]
        obtain ⟨hchildinv, hchildlvl, hchildcst⟩ := invariants_child n idx child hinv he
        have hrem : PTTreePath.valid (b :: t) child.constants.arch child.level := by
          rw [hchildcst, hchildlvl]
          exact valid_tail (b :: t) idx n.constants.arch n.level hp (List.cons_ne_nil b t)
        have hrec := ih child hchildinv hrem
        have hlc : n.level < n.constants.arch.level_count - 1 := by
          have h1 := hp.2.1
          simp only [List.length_cons] at h1
          omega
        apply update_invariants n idx _ hinv
        · apply is_entry_valid_node_intro _ _ _ hlc
          · rw [(tm_remove_constants child (b :: t)).2, hchildlvl]
          · rw [(tm_remove_constants child (b :: t)).1, hchildcst]
        · rw [entryChildInv_node]
          exact hrec
      | frame fr =>
        rw [tm_remove_cons_frame n idx (b :: t) fr (List.cons_ne_nil b t) he]
        exact hinv
      | empty =>
        rw [tm_remove_cons_empty n idx (b :: t) (List.cons_ne_nil b t) he]
        exact hinv

/-- Every visited entry satisfies `is_entry_valid` at its level
(`lemma_visited_entries_satisfy_invariants`). -/
theorem visit_entries_valid (n : PTTreeNode) (p : List Nat)
    (hinv : n.invariants = true)
    (hp : PTTreePath.valid p n.constants.arch n.level) (i : Nat)
    (hi : i < (n.recursive_visit p).length) :
    PTTreeNode.is_entry_valid ((n.recursive_visit p).getD i .empty) (n.level + i)
      n.constants = true := by
  induction p generalizing n i with
  | nil => rw [recursive_visit_nil] at hi; simp at hi
  | cons idx rem ih =>
    have hidxlt : idx < n.entries.length := by
      have h1 := valid_head rem idx n.constants.arch n.level hp
      have h3 := (invariants_unfold n hinv).2.2.1
      omega
    have hmem := getD_mem_of_lt n.entries idx .empty hidxlt
    have hval := (entriesInv_mem _ _ _ (invariants_unfold n hinv).2.2.2 _ hmem).1
    cases rem with
    | nil =>
      rw [recursive_visit_single] at hi ⊢
      simp only [List.length_singleton] at hi
      have hz : i = 0 := by omega
      subst hz
      simpa using hval
    | cons b t =>
      cases he : n.entries.getD idx .empty with
      | node child =>
        rw [recursive_visit_cons_node n idx (b :: t) child (List.cons_ne_nil b t) he] at hi ⊢
        obtain ⟨hchildinv, hchildlvl, hchildcst⟩ := invariants_child n idx child hinv he
        cases i with
        | zero =>
          simp only [List.getD_cons_zero, Nat.add_zero]
          rw [← he]
          exact hval
        | succ i' =>
          simp only [List.getD_cons_succ]
          have hrem : PTTreePath.valid (b :: t) child.constants.arch child.level := by
            rw [hchildcst, hchildlvl]
            exact valid_tail (b :: t) idx n.constants.arch n.level hp (List.cons_ne_nil b t)
          have hrec := ih child hchildinv hrem i' (by simpa using hi)
          rw [hchildcst, hchildlvl] at hrec
          have harg : n.level + 1 + i' = n.level + (i' + 1) := by omega
          rw [harg] at hrec
          exact hrec
      | frame fr =>
        rw [recursive_visit_cons_frame n idx (b :: t) fr (List.cons_ne_nil b t) he] at hi ⊢
        simp only [List.length_singleton] at hi
        have hz : i = 0 := by omega
        subst hz
        simp only [List.getD_cons_zero, Nat.add_zero]
        rw [← he]
        exact hval
      | empty =>
        rw [recursive_visit_cons_empty n idx (b :: t) (List.cons_ne_nil b t) he] at hi ⊢
        simp only [List.length_singleton] at hi
        have hz : i = 0 := by omega
        subst hz
        rfl

/-- `PTTreeModel::map` preserves the invariants, under the map contract
(`map_preserves_invariants` in `tree.rs`). -/
theorem map_invariants (m : PTTreeModel) (vbase : Nat) (frame : Frame) (m' : PTTreeModel)
    (hinv : m.invariants) (hsz : m.arch.is_valid_frame_size frame.size)
    (hbalign : frame.base % frame.size = 0)
    (hlb : m.pmem_lb ≤ frame.base) (hub : frame.base + frame.size ≤ m.pmem_ub)
    (hmap : m.map vbase frame = some m') : m'.invariants := by
  obtain ⟨hlvl0, hrootinv⟩ := hinv
  obtain ⟨hguard, hroot⟩ := map_some_elim m vbase frame m' hmap
  have harch : m.root.constants.arch.valid := (invariants_unfold m.root hrootinv).1
  obtain ⟨hLlt, hLfs⟩ := level_of_frame_size_spec m.arch frame.size hsz
  set L := m.arch.level_of_frame_size frame.size with hL
  set p := PTTreePath.from_vaddr vbase m.arch L with hpdef
  have hpvalid : PTTreePath.valid p m.root.constants.arch m.root.level := by
    rw [hlvl0]
    exact from_vaddr_valid m.arch harch vbase L hLlt
  have hplen : p.length = L + 1 := by rw [hpdef]; exact from_vaddr_length vbase m.arch L
  have hentry : PTTreeNode.is_entry_valid (.frame frame)
      (m.root.level + p.length - 1) m.root.constants = true := by
    rw [PTTreeNode.is_entry_valid]
    simp only [Bool.and_eq_true, decide_eq_true_eq]
    refine ⟨⟨⟨?_, hbalign⟩, hlb⟩, hub⟩
    rw [hlvl0, hplen]
    have harg : 0 + (L + 1) - 1 = L := by omega
    rw [harg]
    exact hLfs.symm
  constructor
  · rw [hroot]
    rw [(tm_insert_constants _ _ _).2]
    exact hlvl0
  · rw [hroot]
    exact tm_insert_invariants m.root p (.frame frame) hrootinv hpvalid hentry
      (entryChildInv_frame frame)

/-- Unpack a successful `PTTreeModel::unmap`. -/
theorem unmap_some_elim (m : PTTreeModel) (vbase : Nat) (m' : PTTreeModel)
    (hunmap : m.unmap vbase = some m') :
    ∃ r frame, m.query vbase = some (r, frame) ∧
      m'.root = TreeModel.recursive_remove m.root
        (PTTreePath.from_vaddr vbase m.arch (m.arch.level_of_frame_size frame.size)) := by
  simp only [PTTreeModel.unmap] at hunmap
  cases hq : m.query vbase with
  | none => rw [hq] at hunmap; simp at hunmap
  | some res =>
    obtain ⟨r, f⟩ := res
    rw [hq] at hunmap
    have hred : (some (⟨TreeModel.recursive_remove m.root
        (PTTreePath.from_vaddr vbase m.arch (m.arch.level_of_frame_size f.size))⟩ :
        PTTreeModel)) = some m' := hunmap
    exact ⟨r, f, rfl, by rw [← Option.some_inj.mp hred]⟩

/-- `PTTreeModel::unmap` preserves the invariants
(`unmap_preserves_invariants` in `tree.rs`). -/
theorem unmap_invariants (m : PTTreeModel) (vbase : Nat) (m' : PTTreeModel)
    (hinv : m.invariants) (hunmap : m.unmap vbase = some m') : m'.invariants := by
  obtain ⟨hlvl0, hrootinv⟩ := hinv
  obtain ⟨r, frame, hq, hroot⟩ := unmap_some_elim m vbase m' hunmap
  have harch : m.root.constants.arch.valid := (invariants_unfold m.root hrootinv).1
  obtain ⟨f2, hlast, hres⟩ := query_some_elim m vbase (r, frame) hq
  have hf2 : frame = f2 := by
    have := congrArg Prod.snd hres
    simpa using this
  subst hf2
  -- the found frame's size is a supported frame size
  set q := PTTreePath.from_vaddr vbase m.arch (m.arch.level_count - 1) with hqdef
  have hlc0 : 0 < m.arch.level_count := harch.1
  have hqvalid : PTTreePath.valid q m.root.constants.arch m.root.level := by
    rw [hlvl0, hqdef]
    exact from_vaddr_valid m.arch harch vbase (m.arch.level_count - 1) (by omega)
  have hqne : q ≠ [] := by rw [hqdef]; unfold PTTreePath.from_vaddr; simp
  have hdpos : 0 < (m.root.recursive_visit q).length := visit_length_pos m.root q hqne
  have hdle : (m.root.recursive_visit q).length ≤ q.length := visit_length_le m.root q
  have hqlen : q.length = m.arch.level_count - 1 + 1 := by
    rw [hqdef]; exact from_vaddr_length vbase m.arch _
  set d := (m.root.recursive_visit q).length with hd
  have hlastD : (m.root.recursive_visit q).getLast? =
      some ((m.root.recursive_visit q).getD (d - 1) .empty) :=
    getLast?_eq_getD _ _ (List.length_pos.mp hdpos)
  have hgetD : (m.root.recursive_visit q).getD (d - 1) .empty = .frame frame := by
    rw [hlastD] at hlast
    simpa using hlast
  have hvalid := visit_entries_valid m.root q hrootinv hqvalid (d - 1) (by omega)
  rw [hgetD, PTTreeNode.is_entry_valid] at hvalid
  simp only [Bool.and_eq_true, decide_eq_true_eq] at hvalid
  have hfs : frame.size = m.arch.frame_size (m.root.level + (d - 1)) := hvalid.1.1.1
  rw [hlvl0] at hfs
  simp only [Nat.zero_add] at hfs
  have hszvalid : m.arch.is_valid_frame_size frame.size :=
    ⟨d - 1, by omega, hfs.symm⟩
  obtain ⟨hLlt, hLfs⟩ := level_of_frame_size_spec m.arch frame.size hszvalid
  constructor
  · rw [hroot, (tm_remove_constants _ _).2]
    exact hlvl0
  · rw [hroot]
    apply tm_remove_invariants m.root _ hrootinv
    rw [hlvl0]
    exact from_vaddr_valid m.arch harch vbase _ hLlt

/-! ## Non-overlap of path mappings -/

theorem lastIsFrame_elim (l : List NodeEntry) (h : lastIsFrame l = true) :
    ∃ f, l.getLast? = some (.frame f) := by
  unfold lastIsFrame at h
  cases hv : l.getLast? with
  | none => rw [hv] at h; simp at h
  | some e =>
    cases e with
    | node c => rw [hv] at h; simp at h
    | frame f => exact ⟨f, rfl⟩
    | empty => rw [hv] at h; simp at h

theorem is_frame_path_elim (n : PTTreeNode) (p : List Nat) (h : n.is_frame_path p = true) :
    PTTreePath.valid p n.constants.arch n.level ∧
      (∃ f, (n.recursive_visit p).getLast? = some (.frame f)) ∧
      (n.recursive_visit p).length = p.length := by
  unfold PTTreeNode.is_frame_path at h
  simp only [Bool.and_eq_true, decide_eq_true_eq] at h
  exact ⟨h.1.1, lastIsFrame_elim _ h.1.2, h.2⟩

theorem path_mappings_some_elim (n : PTTreeNode) (p : List Nat) (f : Frame)
    (h : n.path_mappings p = some f) :
    n.is_frame_path p = true ∧ (n.recursive_visit p).getLast? = some (.frame f) := by
  unfold PTTreeNode.path_mappings at h
  by_cases hfp : n.is_frame_path p = true
  · refine ⟨hfp, ?_⟩
    rw [if_pos hfp] at h
    cases hv : (n.recursive_visit p).getLast? with
    | none => rw [hv] at h; simp at h
    | some e =>
      cases e with
      | node c => rw [hv] at h; simp at h
      | frame fr => rw [hv] at h; simp at h; rw [h]
      | empty => rw [hv] at h; simp at h
  · rw [if_neg hfp] at h; simp at h

theorem prefix_getD {α : Type} (l1 l2 : List α) (i : Nat) (d : α) (hpre : l1 <+: l2)
    (hi : i < l1.length) : l2.getD i d = l1.getD i d := by
  obtain ⟨t, rfl⟩ := hpre
  rw [List.getD_append]
  exact hi

/-- Two distinct frame paths cannot be prefixes of one another
(`lemma_path_mappings_nonprefix`). -/
theorem frame_path_diverges (n : PTTreeNode) (p1 p2 : List Nat)
    (h1 : n.is_frame_path p1 = true) (h2 : n.is_frame_path p2 = true)
    (hpre : p2 <+: p1) : p1 = p2 := by
  obtain ⟨hv1, ⟨f1, hl1⟩, hlen1⟩ := is_frame_path_elim n p1 h1
  obtain ⟨hv2, ⟨f2, hl2⟩, hlen2⟩ := is_frame_path_elim n p2 h2
  by_cases heq : p1.length = p2.length
  · exact (hpre.eq_of_length heq.symm).symm
  · exfalso
    have hlt : p2.length < p1.length := by
      have := hpre.length_le
      omega
    have hp2ne : p2 ≠ [] := by
      have := hv2.1
      exact List.length_pos.mp this
    have hmono := visit_mono n p2 p1 hpre hp2ne
    have hvne2 : n.recursive_visit p2 ≠ [] :=
      List.length_pos.mp (visit_length_pos n p2 hp2ne)
    -- the last entry of visit p2 appears inside visit p1 at position p2.length - 1
    have hgd2 : (n.recursive_visit p2).getD (p2.length - 1) .empty = .frame f2 := by
      have hgl := getLast?_eq_getD (n.recursive_visit p2) .empty hvne2
      rw [hgl] at hl2
      rw [← hlen2]
      simpa using hl2
    have hgd1 : (n.recursive_visit p1).getD (p2.length - 1) .empty = .frame f2 := by
      have hpe := prefix_getD (n.recursive_visit p2) (n.recursive_visit p1)
        (p2.length - 1) .empty hmono
        (by rw [hlen2]; have hpos2 := hv2.1; omega)
      rw [hpe]
      exact hgd2
    have hlt2 : p2.length - 1 + 1 < (n.recursive_visit p1).length := by
      rw [hlen1]
      have hpos2 := hv2.1
      omega
    have hnode := visit_isNode_of_lt n p1 (p2.length - 1) hlt2
    obtain ⟨c, hc⟩ := hnode
    rw [hgd1] at hc
    simp at hc

/-- Existence of the first differing index of two lists, neither a prefix of
the other (`lemma_first_diff_idx_exists`). -/
theorem exists_first_diff (p1 p2 : List Nat) (h1 : ¬ p1 <+: p2) (h2 : ¬ p2 <+: p1) :
    ∃ i, i < p1.length ∧ i < p2.length ∧ p1.getD i 0 ≠ p2.getD i 0 ∧
      ∀ j, j < i → p1.getD j 0 = p2.getD j 0 := by
  induction p1 generalizing p2 with
  | nil => exact absurd (List.nil_prefix) h1
  | cons a t1 ih =>
    cases p2 with
    | nil => exact absurd (List.nil_prefix) h2
    | cons b t2 =>
      by_cases hab : a = b
      · subst hab
        have h1' : ¬ t1 <+: t2 := fun hcon => h1 ((List.prefix_cons_inj a).mpr hcon)
        have h2' : ¬ t2 <+: t1 := fun hcon => h2 ((List.prefix_cons_inj a).mpr hcon)
        obtain ⟨i, hi1, hi2, hne, hagree⟩ := ih t2 h1' h2'
        refine ⟨i + 1, by simpa using hi1, by simpa using hi2, by simpa using hne, ?_⟩
        intro j hj
        cases j with
        | zero => simp
        | succ j' =>
          simp only [List.getD_cons_succ]
          exact hagree j' (by omega)
      · exact ⟨0, by simp, by simp, by simpa using hab, fun j hj => by omega⟩

/-- Any two distinct entries of `path_mappings` occupy disjoint virtual
ranges (`lemma_path_mappings_nonoverlap_in_vmem` in `node.rs`). -/
theorem path_mappings_nonoverlap_vmem (n : PTTreeNode)
    (hlvl : n.level = 0) (hinv : n.invariants = true)
    (p1 p2 : List Nat) (f1 f2 : Frame)
    (h1 : n.path_mappings p1 = some f1) (h2 : n.path_mappings p2 = some f2)
    (hne : p1 ≠ p2) :
    overlap (PTTreePath.to_vaddr p1 n.constants.arch) f1.size
      (PTTreePath.to_vaddr p2 n.constants.arch) f2.size = false := by
  obtain ⟨hfp1, hlast1⟩ := path_mappings_some_elim n p1 f1 h1
  obtain ⟨hfp2, hlast2⟩ := path_mappings_some_elim n p2 f2 h2
  obtain ⟨hv1, _, hlen1⟩ := is_frame_path_elim n p1 hfp1
  obtain ⟨hv2, _, hlen2⟩ := is_frame_path_elim n p2 hfp2
  have harch : n.constants.arch.valid := (invariants_unfold n hinv).1
  -- neither path is a prefix of the other
  have hnp1 : ¬ p1 <+: p2 := fun hcon => hne (frame_path_diverges n p2 p1 hfp2 hfp1 hcon).symm
  have hnp2 : ¬ p2 <+: p1 := fun hcon => hne (frame_path_diverges n p1 p2 hfp1 hfp2 hcon)
  obtain ⟨i, hi1, hi2, hneidx, hagree⟩ := exists_first_diff p1 p2 hnp1 hnp2
  -- the mapped frames' sizes are the terminal levels' frame sizes
  have hne1 : n.recursive_visit p1 ≠ [] :=
    List.length_pos.mp (visit_length_pos n p1 (List.length_pos.mp hv1.1))
  have hne2 : n.recursive_visit p2 ≠ [] :=
    List.length_pos.mp (visit_length_pos n p2 (List.length_pos.mp hv2.1))
  have hsz1 : f1.size = n.constants.arch.frame_size (p1.length - 1) := by
    have hgd : (n.recursive_visit p1).getD ((n.recursive_visit p1).length - 1) .empty =
        .frame f1 := by
      have hgl := getLast?_eq_getD (n.recursive_visit p1) .empty hne1
      rw [hgl] at hlast1
      simpa using hlast1
    have hval := visit_entries_valid n p1 hinv hv1 ((n.recursive_visit p1).length - 1)
      (by have := visit_length_pos n p1 (List.length_pos.mp hv1.1); omega)
    rw [hgd, PTTreeNode.is_entry_valid] at hval
    simp only [Bool.and_eq_true, decide_eq_true_eq] at hval
    have := hval.1.1.1
    rw [hlvl, hlen1] at this
    simpa using this
  have hsz2 : f2.size = n.constants.arch.frame_size (p2.length - 1) := by
    have hgd : (n.recursive_visit p2).getD ((n.recursive_visit p2).length - 1) .empty =
        .frame f2 := by
      have hgl := getLast?_eq_getD (n.recursive_visit p2) .empty hne2
      rw [hgl] at hlast2
      simpa using hlast2
    have hval := visit_entries_valid n p2 hinv hv2 ((n.recursive_visit p2).length - 1)
      (by have := visit_length_pos n p2 (List.length_pos.mp hv2.1); omega)
    rw [hgd, PTTreeNode.is_entry_valid] at hval
    simp only [Bool.and_eq_true, decide_eq_true_eq] at hval
    have := hval.1.1.1
    rw [hlvl, hlen2] at this
    simpa using this
  -- path-index order gives address order
  have hidxa : ∀ j, j < p1.length → p1.getD j 0 < n.constants.arch.entry_count (0 + j) := by
    intro j hj
    have := hv1.2.2 j hj
    rw [hlvl] at this
    simpa [Nat.add_comm] using this
  have hidxb : ∀ j, j < p2.length → p2.getD j 0 < n.constants.arch.entry_count (0 + j) := by
    intro j hj
    have := hv2.2.2 j hj
    rw [hlvl] at this
    simpa [Nat.add_comm] using this
  have hlena : 0 + p1.length ≤ n.constants.arch.level_count := by
    have := hv1.2.1
    rw [hlvl] at this
    omega
  have hlenb : 0 + p2.length ≤ n.constants.arch.level_count := by
    have := hv2.2.1
    rw [hlvl] at this
    omega
  rcases Nat.lt_or_ge (p1.getD i 0) (p2.getD i 0) with hlt | hge
  · have hord := order_aux n.constants.arch harch 0 i p1 p2 hi1 hi2 hlena hidxa hagree hlt
    unfold overlap
    rw [PTTreePath.to_vaddr, PTTreePath.to_vaddr] at *
    simp only [Nat.zero_add] at hord
    have h1le : PTTreePath.toVaddrFrom n.constants.arch 0 p1 ≤
        PTTreePath.toVaddrFrom n.constants.arch 0 p2 := by
      have hpos := harch.2.2.1 (p1.length - 1) (by omega)
      omega
    rw [if_pos h1le]
    simp only [decide_eq_false_iff_not, Nat.not_lt]
    rw [hsz1]
    omega
  · have hgt : p2.getD i 0 < p1.getD i 0 := by omega
    have hagree' : ∀ j, j < i → p2.getD j 0 = p1.getD j 0 :=
      fun j hj => (hagree j hj).symm
    have hord := order_aux n.constants.arch harch 0 i p2 p1 hi2 hi1 hlenb hidxb hagree' hgt
    unfold overlap
    rw [PTTreePath.to_vaddr, PTTreePath.to_vaddr] at *
    simp only [Nat.zero_add] at hord
    have h2lt : PTTreePath.toVaddrFrom n.constants.arch 0 p2 <
        PTTreePath.toVaddrFrom n.constants.arch 0 p1 := by
      have hpos := harch.2.2.1 (p2.length - 1) (by omega)
      omega
    rw [if_neg (by omega)]
    simp only [decide_eq_false_iff_not, Nat.not_lt]
    rw [hsz2]
    omega

/-! ## Behaviour of `recursive_remove` on a frame reached early -/

theorem update_getD_self (n : PTTreeNode) (idx : Nat) (h : idx < n.entries.length) :
    n.update idx (n.entries.getD idx .empty) = n := by
  cases n with
  | mk c lvl entries =>
    show PTTreeNode.mk c lvl (entries.set idx (entries.getD idx .empty)) = PTTreeNode.mk c lvl entries
    rw [set_getD_self entries idx .empty (by simpa using h)]

/-- Core of the early-frame removal behaviour of
`PTTreeNode::recursive_remove`: when the visit stops at a frame before the
path is exhausted, removal succeeds and clears the frame exactly when all
remaining indices are zero, and otherwise fails leaving the tree unchanged.
-/
theorem remove_early_frame (n : PTTreeNode) (p : List Nat)
    (hlen : 1 < p.length)
    (hvis : (n.recursive_visit p).length < p.length)
    (hf : ∃ f, (n.recursive_visit p).getLast? = some (.frame f)) :
    ((p.drop (n.recursive_visit p).length).all (· == 0) = true →
      (n.recursive_remove p).2 = .Ok ∧
      ((n.recursive_remove p).1.recursive_visit p).length = (n.recursive_visit p).length ∧
      ((n.recursive_remove p).1.recursive_visit p).getLast? = some .empty) ∧
    ((p.drop (n.recursive_visit p).length).all (· == 0) = false →
      n.recursive_remove p = (n, .Err)) := by
  induction p generalizing n with
  | nil => simp at hlen
  | cons idx rem ih =>
    cases rem with
    | nil => simp at hlen
    | cons b t =>
      cases he : n.entries.getD idx .empty with
      | frame fr =>
        rw [recursive_visit_cons_frame n idx (b :: t) fr (List.cons_ne_nil b t) he]
        rw [n_remove_cons_frame n idx (b :: t) fr (List.cons_ne_nil b t) he]
        have hidxlt : idx < n.entries.length :=
          getD_lt_length_of_ne _ _ _ (by rw [he]; simp)
        simp only [List.length_singleton, List.drop_succ_cons, List.drop_zero]
        constructor
        · intro hz
          rw [if_pos hz]
          refine ⟨rfl, ?_, ?_⟩
          · have hset : (n.update idx .empty).entries.getD idx .empty = .empty := by
              rw [update_entries, getD_set_self _ _ _ _ hidxlt]
            rw [recursive_visit_cons_empty _ idx (b :: t) (List.cons_ne_nil b t) hset]
            simp
          · have hset : (n.update idx .empty).entries.getD idx .empty = .empty := by
              rw [update_entries, getD_set_self _ _ _ _ hidxlt]
            rw [recursive_visit_cons_empty _ idx (b :: t) (List.cons_ne_nil b t) hset]
            simp
        · intro hz
          rw [if_neg (by simp [hz])]
      | node child =>
        obtain ⟨f, hfl⟩ := hf
        rw [recursive_visit_cons_node n idx (b :: t) child (List.cons_ne_nil b t) he]
          at hfl hvis ⊢
        have hvne : child.recursive_visit (b :: t) ≠ [] :=
          List.length_pos.mp (visit_length_pos child (b :: t) (List.cons_ne_nil b t))
        rw [getLast?_cons_of_ne_nil _ _ hvne] at hfl
        have hvpos : 0 < (child.recursive_visit (b :: t)).length :=
          visit_length_pos child (b :: t) (List.cons_ne_nil b t)
        have hvis' : (child.recursive_visit (b :: t)).length < (b :: t).length := by
          simp only [List.length_cons] at hvis ⊢
          omega
        have hlen' : 1 < (b :: t).length := by omega
        obtain ⟨ihz, ihnz⟩ := ih child hlen' hvis' ⟨f, hfl⟩
        have hidxlt : idx < n.entries.length :=
          getD_lt_length_of_ne _ _ _ (by rw [he]; simp)
        rw [n_remove_cons_node n idx (b :: t) child (List.cons_ne_nil b t) he]
        simp only [List.length_cons, List.drop_succ_cons]
        have hdrop : (b :: t).drop (child.recursive_visit (b :: t)).length =
            (idx :: b :: t).drop ((child.recursive_visit (b :: t)).length + 1) := by
          simp
        constructor
        · intro hz
          have hz' : ((b :: t).drop (child.recursive_visit (b :: t)).length).all (· == 0) =
              true := by
            rw [hdrop]
            simpa using hz
          obtain ⟨hok, hlen2, hlast2⟩ := ihz hz'
          refine ⟨hok, ?_, ?_⟩
          · have hset : (n.update idx
                (.node (child.recursive_remove (b :: t)).1)).entries.getD idx .empty =
                .node (child.recursive_remove (b :: t)).1 := by
              rw [update_entries, getD_set_self _ _ _ _ hidxlt]
            rw [recursive_visit_cons_node _ idx (b :: t) _ (List.cons_ne_nil b t) hset]
            simpa using hlen2
          · have hset : (n.update idx
                (.node (child.recursive_remove (b :: t)).1)).entries.getD idx .empty =
                .node (child.recursive_remove (b :: t)).1 := by
              rw [update_entries, getD_set_self _ _ _ _ hidxlt]
            rw [recursive_visit_cons_node _ idx (b :: t) _ (List.cons_ne_nil b t) hset]
            have hvne' : ((child.recursive_remove (b :: t)).1).recursive_visit (b :: t) ≠ [] :=
              List.length_pos.mp (visit_length_pos _ (b :: t) (List.cons_ne_nil b t))
            rw [getLast?_cons_of_ne_nil _ _ hvne']
            exact hlast2
        · intro hz
          have hz' : ((b :: t).drop (child.recursive_visit (b :: t)).length).all (· == 0) =
              false := by
            rw [hdrop]
            simpa using hz
          have hres := ihnz hz'
          rw [hres]
          show (n.update idx (.node child), PagingResult.Err) = (n, PagingResult.Err)
          rw [← he, update_getD_self n idx hidxlt]
      | empty =>
        obtain ⟨f, hfl⟩ := hf
        rw [recursive_visit_cons_empty n idx (b :: t) (List.cons_ne_nil b t) he] at hfl
        simp at hfl

/-! ## Low-level state lemmas -/

theorem overlap_of_common (b1 s1 b2 s2 v : Nat)
    (h1a : b1 ≤ v) (h1b : v < b1 + s1) (h2a : b2 ≤ v) (h2b : v < b2 + s2) :
    overlap b1 s1 b2 s2 = true := by
  unfold overlap
  by_cases h : b1 ≤ b2
  · rw [if_pos h]; simp; omega
  · rw [if_neg h]; simp; omega

theorem assoc_unique (l : List (Nat × Frame))
    (hpw : l.Pairwise (fun x y => x.1 ≠ y.1)) (bf1 bf2 : Nat × Frame)
    (h1 : bf1 ∈ l) (h2 : bf2 ∈ l) (hb : bf1.1 = bf2.1) : bf1 = bf2 := by
  induction l with
  | nil => simp at h1
  | cons a t ih =>
    rw [List.pairwise_cons] at hpw
    rcases List.mem_cons.mp h1 with rfl | hm1
    · rcases List.mem_cons.mp h2 with rfl | hm2
      · rfl
      · exact absurd hb (hpw.1 _ hm2)
    · rcases List.mem_cons.mp h2 with rfl | hm2
      · exact absurd hb.symm (hpw.1 _ hm1)
      · exact ih hpw.2 hm1 hm2

theorem covers_elim (vaddr : Nat) (bf : Nat × Frame) (h : LowLevelState.covers vaddr bf = true) :
    bf.1 ≤ vaddr ∧ vaddr < bf.1 + bf.2.size := by
  unfold LowLevelState.covers at h
  simp only [Bool.and_eq_true, decide_eq_true_eq] at h
  exact h

/-- Under the invariants, a cache hit resolves to the very same mapping the
page table resolves to (`lemma_mapping_in_both_tlb_and_pt`). -/
theorem resolve_pt_of_tlb (s : LowLevelState) (vaddr : Nat) (b : Nat) (f : Frame)
    (hinv : s.invariants) (h : s.resolve_tlb vaddr = some (b, f)) :
    s.resolve_pt vaddr = some (b, f) := by
  obtain ⟨hsub, hnov, hfun⟩ := hinv
  have hmem_t : (b, f) ∈ s.tlb := List.mem_of_find?_eq_some h
  have hcov : LowLevelState.covers vaddr (b, f) = true := List.find?_some h
  have hmem_p : (b, f) ∈ s.pt := hsub _ hmem_t
  unfold LowLevelState.resolve_pt
  cases hp : s.pt.find? (LowLevelState.covers vaddr) with
  | none =>
    exfalso
    have := List.find?_eq_none.mp hp _ hmem_p
    rw [hcov] at this
    exact this rfl
  | some bf' =>
    have hmem' : bf' ∈ s.pt := List.mem_of_find?_eq_some hp
    have hcov' : LowLevelState.covers vaddr bf' = true := List.find?_some hp
    obtain ⟨hc1, hc2⟩ := covers_elim vaddr bf' hcov'
    obtain ⟨hd1, hd2⟩ := covers_elim vaddr (b, f) hcov
    have hover : overlap bf'.1 bf'.2.size b f.size = true :=
      overlap_of_common _ _ _ _ vaddr hc1 hc2 hd1 hd2
    have hbase : bf'.1 = b := by
      rcases hnov bf' hmem' (b, f) hmem_p with hb | hnov'
      · exact hb
      · rw [hover] at hnov'; simp at hnov'
    have heq : bf' = (b, f) := assoc_unique s.pt hfun bf' (b, f) hmem' hmem_p hbase
    rw [heq]

/-- The modelled `unmap` preserves the low-level invariants, in particular
the cache-is-submap invariant (`ll_unmap_preserves_invariants`). -/
theorem ll_unmap_invariants (s : LowLevelState) (base : Nat) (hinv : s.invariants) :
    (s.unmap base).invariants := by
  obtain ⟨hsub, hnov, hfun⟩ := hinv
  unfold LowLevelState.unmap
  by_cases hany : s.pt.any (fun bf => bf.1 == base) = true
  · rw [if_pos hany]
    refine ⟨?_, ?_, ?_⟩
    · intro bf hbf
      rw [List.mem_filter] at hbf ⊢
      exact ⟨hsub _ hbf.1, hbf.2⟩
    · intro bf1 h1 bf2 h2
      rw [List.mem_filter] at h1 h2
      exact hnov _ h1.1 _ h2.1
    · exact List.Pairwise.filter _ hfun
  · rw [if_neg hany]
    exact ⟨hsub, hnov, hfun⟩

/-- `overlap` is symmetric on regions with distinct bases. -/
theorem overlap_comm_of_ne (b1 s1 b2 s2 : Nat) (hne : b1 ≠ b2) :
    overlap b1 s1 b2 s2 = overlap b2 s2 b1 s1 := by
  unfold overlap
  by_cases h : b1 ≤ b2
  · have h2 : ¬ b2 ≤ b1 := by omega
    rw [if_pos h, if_neg h2]
  · have h2 : b2 ≤ b1 := by omega
    rw [if_neg h, if_pos h2]

/-- The modelled low-level `read` preserves the invariants (the state is
unchanged). -/
theorem ll_read_invariants (s : LowLevelState) (vaddr : Nat) (hinv : s.invariants) :
    (s.read vaddr).1.invariants := hinv

/-- The modelled low-level `write` preserves the invariants: it changes
physical memory only, never the page table or the cache. -/
theorem ll_write_invariants (s : LowLevelState) (vaddr value : Nat)
    (hinv : s.invariants) : (s.write vaddr value).1.invariants := by
  unfold LowLevelState.write
  cases s.write_with (s.resolve vaddr) vaddr value with
  | some mem2 => exact hinv
  | none => exact hinv

/-- The modelled low-level `map` preserves the invariants: the cache built
from the old page table is a submap of the strictly larger one, the guard
refuses an occupied or overlapping region, and a fresh base keeps the keys
distinct. -/
theorem ll_map_invariants (s : LowLevelState) (vbase : Nat) (frame : Frame)
    (hinv : s.invariants) : (s.map vbase frame).1.invariants := by
  obtain ⟨hsub, hnov, hfun⟩ := hinv
  unfold LowLevelState.map
  by_cases hany :
      s.pt.any (fun bf => bf.1 == vbase || overlap bf.1 bf.2.size vbase frame.size) = true
  · rw [if_pos hany]
    exact ⟨hsub, hnov, hfun⟩
  · rw [if_neg hany]
    have hall : ∀ bf ∈ s.pt,
        bf.1 ≠ vbase ∧ overlap bf.1 bf.2.size vbase frame.size = false := by
      intro bf hbf
      have := List.any_eq_false.mp (Bool.not_eq_true _ |>.mp hany) bf hbf
      simp only [Bool.or_eq_true, beq_iff_eq, not_or] at this
      exact ⟨this.1, Bool.not_eq_true _ |>.mp this.2⟩
    refine ⟨?_, ?_, ?_⟩
    · intro bf hbf
      exact List.mem_cons_of_mem _ (hsub _ hbf)
    · intro bf1 h1 bf2 h2
      rcases List.mem_cons.mp h1 with rfl | hm1
      · rcases List.mem_cons.mp h2 with rfl | hm2
        · left; rfl
        · right
          have hne : bf2.1 ≠ vbase := (hall bf2 hm2).1
          rw [overlap_comm_of_ne _ _ _ _ (fun he => hne he.symm)]
          exact (hall bf2 hm2).2
      · rcases List.mem_cons.mp h2 with rfl | hm2
        · right
          exact (hall bf1 hm1).2
        · exact hnov bf1 hm1 bf2 hm2
    · refine List.pairwise_cons.mpr ⟨?_, hfun⟩
      intro y hy
      exact fun he => (hall y hy).1 he.symm

/-- The modelled low-level `query` preserves the invariants (the state is
unchanged). -/
theorem ll_query_invariants (s : LowLevelState) (vaddr : Nat) (hinv : s.invariants) :
    (s.query vaddr).1.invariants := hinv

/-- The modelled `cacheEvict` preserves the invariants: a filtered cache
stays a submap and the page table is untouched. -/
theorem ll_cache_evict_invariants (s : LowLevelState) (base : Nat)
    (hinv : s.invariants) : (s.cache_evict base).invariants := by
  obtain ⟨hsub, hnov, hfun⟩ := hinv
  refine ⟨?_, hnov, hfun⟩
  intro bf hbf
  have hbf2 : bf ∈ s.tlb.filter (fun bf => bf.1 ≠ base) := hbf
  rw [List.mem_filter] at hbf2
  exact hsub _ hbf2.1

/-- Every reachable state satisfies the invariants. -/
theorem reachable_invariants (init m : PTTreeModel)
    (hinit : init.invariants) (h : Reachable init m) : m.invariants := by
  induction h with
  | refl => exact hinit
  | map_step m0 m' vbase frame hr hsz hva hba hlb hub hmap ih =>
    exact map_invariants m0 vbase frame m' ih hsz hba hlb hub hmap
  | unmap_step m0 m' vbase hr hunmap ih =>
    exact unmap_invariants m0 vbase m' ih hunmap

/-! ## Claim theorems -/

/-- C1: the tree model's `recursive_insert` writes the frame only when the
final slot is `Empty` and fails without modification otherwise, but the
executable `PageTable::insert` has the occupancy check inverted: at the
target level it returns `Err` on an *empty* slot and overwrites (returning
`Ok`) on an *occupied* slot, contradicting the claimed all-or-nothing
behaviour and the model it is specified against. -/
theorem pagetable_insert_occupancy_inverted :
    ((PTTreeNode.new cstA 0).recursive_insert [0] frameA).2 = .Ok ∧
    c1occ.recursive_insert [0] frameA = (c1occ, .Err) ∧
    (c1ptEmpty.insert 0 0 0 0 c1pte).2 = .Err ∧
    (c1ptBusy.insert 0 0 0 0 c1pte).2 = .Ok ∧
    (c1ptBusy.insert 0 0 0 0 c1pte).1 ≠ c1ptBusy := by
  refine ⟨rfl, rfl, ?_, ?_, ?_⟩
  · rw [PageTable.insert]; decide
  · rw [PageTable.insert]; decide
  · rw [PageTable.insert]; decide

/-- C2 (amended): after any sequence of successful contract-respecting
`map` / `unmap` calls from an invariant-satisfying initial state, no two
distinct entries of the path-mapping view overlap in virtual memory. -/
theorem reachable_path_mappings_nonoverlap_vmem (init m : PTTreeModel)
    (hinit : init.invariants) (hreach : Reachable init m) :
    ∀ p1 p2 f1 f2, m.root.path_mappings p1 = some f1 →
      m.root.path_mappings p2 = some f2 → p1 ≠ p2 →
      overlap (PTTreePath.to_vaddr p1 m.arch) f1.size
        (PTTreePath.to_vaddr p2 m.arch) f2.size = false := by
  have hi := reachable_invariants init m hinit hreach
  intro p1 p2 f1 f2 h1 h2 hne
  exact path_mappings_nonoverlap_vmem m.root hi.1 hi.2 p1 p2 f1 f2 h1 h2 hne

/-- Witness for C2's amended theorem at a concrete reachable state. -/
theorem reachable_path_mappings_nonoverlap_vmem_witness :
    overlap (PTTreePath.to_vaddr [0] cexM2.arch) frameA.size
      (PTTreePath.to_vaddr [1] cexM2.arch) frameA.size = false :=
  reachable_path_mappings_nonoverlap_vmem cexM0 cexM2 (by decide)
    (Reachable.map_step cexM1 cexM2 4 frameA
      (Reachable.map_step cexM0 cexM1 0 frameA Reachable.refl
        (by decide) (by decide) (by decide) (by decide) (by decide) rfl)
      (by decide) (by decide) (by decide) (by decide) (by decide) rfl)
    [0] [1] frameA frameA (by decide) (by decide) (by decide)

/-- C2 counterexample: a state reachable by two successful contract-
respecting `map` calls whose path-mapping view holds two distinct entries
with identical (hence overlapping) physical ranges — the tree's `map` never
checks physical overlap. -/
theorem reachable_path_mappings_pmem_overlap_cex :
    cexM0.invariants ∧
    Reachable cexM0 cexM2 ∧
    cexM2.root.path_mappings [0] = some frameA ∧
    cexM2.root.path_mappings [1] = some frameA ∧
    ([0] : List Nat) ≠ [1] ∧
    overlap frameA.base frameA.size frameA.base frameA.size = true := by
  refine ⟨by decide, ?_, by decide, by decide, by decide, by decide⟩
  exact Reachable.map_step cexM1 cexM2 4 frameA
    (Reachable.map_step cexM0 cexM1 0 frameA Reachable.refl
      (by decide) (by decide) (by decide) (by decide) (by decide) rfl)
    (by decide) (by decide) (by decide) (by decide) (by decide) rfl

/-- C3: if `map(vbase, frame)` succeeds on an invariant-satisfying table
with aligned `vbase` and a supported frame size, then `query(vbase)` on the
result returns `Ok(vbase, frame)`, and every other previously-successful
query result is unchanged. -/
theorem map_then_query_agreement (m : PTTreeModel) (vbase : Nat) (frame : Frame)
    (m' : PTTreeModel) (hinv : m.invariants)
    (hsz : m.arch.is_valid_frame_size frame.size)
    (hva : aligned vbase frame.size)
    (hmap : m.map vbase frame = some m') :
    m'.query vbase = some (vbase, frame) ∧
    ∀ b2 f2, b2 ≠ vbase → m.query b2 = some (b2, f2) → m'.query b2 = some (b2, f2) := by
  refine ⟨query_after_map m vbase frame m' hinv hsz hva hmap, ?_⟩
  intro b2 f2 hne hq
  exact query_preserved_after_map m vbase frame m' b2 (b2, f2) hmap hq

/-- Witness for C3 at a concrete two-level table. -/
theorem map_then_query_agreement_witness :
    wB1.query 5 = some (5, frameB) ∧
    ∀ b2 f2, b2 ≠ 5 → wB0.query b2 = some (b2, f2) → wB1.query b2 = some (b2, f2) :=
  map_then_query_agreement wB0 5 frameB wB1 (by decide) (by decide) (by decide) rfl

/-- C4: for valid paths rooted at level 0 that first diverge at index `i`
with `a[i] < b[i]`, the address of `a` plus its terminal level's frame size
is at most the address of `b`. -/
theorem path_order_implies_vaddr_order (arch : PTArch) (a b : List Nat) (i : Nat)
    (harch : arch.valid)
    (ha : PTTreePath.valid a arch 0) (hb : PTTreePath.valid b arch 0)
    (hia : i < a.length) (hib : i < b.length)
    (hagree : ∀ j, j < i → a.getD j 0 = b.getD j 0)
    (hlt : a.getD i 0 < b.getD i 0) :
    PTTreePath.to_vaddr a arch + arch.frame_size (a.length - 1) ≤
      PTTreePath.to_vaddr b arch := by
  have hidxa : ∀ j, j < a.length → a.getD j 0 < arch.entry_count (0 + j) := by
    intro j hj
    have := ha.2.2 j hj
    simpa [Nat.add_comm] using this
  have hlena : 0 + a.length ≤ arch.level_count := by
    have := ha.2.1
    omega
  have := order_aux arch harch 0 i a b hia hib hlena hidxa hagree hlt
  simpa [PTTreePath.to_vaddr] using this

/-- Witness for C4 on a concrete two-level architecture. -/
theorem path_order_implies_vaddr_order_witness :
    PTTreePath.to_vaddr [0, 1] archB + archB.frame_size 1 ≤
      PTTreePath.to_vaddr [1, 0] archB :=
  path_order_implies_vaddr_order archB [0, 1] [1, 0] 0 (by decide) (by decide) (by decide)
    (by decide) (by decide) (fun j hj => absurd hj (by omega)) (by decide)

/-- C5 (amended): for every `vaddr` within the architecture's addressable
range (`vaddr < frame_size 0 * entry_count 0`) and every level below the
level count, `to_vaddr (from_vaddr vaddr level)` equals `vaddr` rounded down
to that level's frame size. -/
theorem round_trip_aligns_down_in_range (arch : PTArch) (va L : Nat)
    (harch : arch.valid) (hL : L < arch.level_count)
    (hva : va < arch.frame_size 0 * arch.entry_count 0) :
    PTTreePath.to_vaddr (PTTreePath.from_vaddr va arch L) arch =
      va / arch.frame_size L * arch.frame_size L :=
  to_vaddr_from_vaddr arch harch va L hL hva

/-- Witness for C5's amended theorem. -/
theorem round_trip_aligns_down_in_range_witness :
    PTTreePath.to_vaddr (PTTreePath.from_vaddr 5 archB 1) archB =
      5 / archB.frame_size 1 * archB.frame_size 1 :=
  round_trip_aligns_down_in_range archB 5 1 (by decide) (by decide) (by decide)

/-- C5 counterexample: for an address beyond the addressable range the round
trip is not the rounded-down address (`8` on the one-level `archA` with
frame size 4 maps back to `0`, not `8`). -/
theorem round_trip_out_of_range_cex :
    PTTreePath.to_vaddr (PTTreePath.from_vaddr 8 archA 0) archA = 0 ∧
    8 / archA.frame_size 0 * archA.frame_size 0 = 8 ∧ (0 : Nat) ≠ 8 := by
  refine ⟨by decide, by decide, by decide⟩

/-- C6: after a successful `map(vbase, frame)` on an invariant-satisfying
table with aligned `vbase` and a supported frame size, `unmap(vbase)`
returns `Ok` and a subsequent `query(vbase)` returns `Err`. -/
theorem map_then_unmap_then_query_err (m : PTTreeModel) (vbase : Nat) (frame : Frame)
    (m' : PTTreeModel) (hinv : m.invariants)
    (hsz : m.arch.is_valid_frame_size frame.size)
    (hva : aligned vbase frame.size)
    (hmap : m.map vbase frame = some m') :
    ∃ m'', m'.unmap vbase = some m'' ∧ m''.query vbase = none :=
  unmap_after_map m vbase frame m' hinv hsz hva hmap

/-- Witness for C6 at a concrete two-level table. -/
theorem map_then_unmap_then_query_err_witness :
    ∃ m'', wB1.unmap 5 = some m'' ∧ m''.query 5 = none :=
  map_then_unmap_then_query_err wB0 5 frameB wB1 (by decide) (by decide) (by decide) rfl

/-- C7: under the low-level invariants, a translation-cache hit for `vaddr`
coincides with the page table's resolution for `vaddr`, so reads and writes
produce identical results whichever way they resolve; and the cache-is-submap
invariant (with the other low-level invariants) is preserved by every
low-level operation — `read`, `write`, `map`, `unmap` (which evicts the
removed mapping's cache entry), `query`, and the internal `cacheEvict`. -/
theorem tlb_hit_consistent_and_ops_preserve (s : LowLevelState) (vaddr : Nat)
    (hinv : s.invariants) :
    (∀ b f, s.resolve_tlb vaddr = some (b, f) →
      s.resolve_pt vaddr = some (b, f) ∧
      s.read_with (s.resolve_tlb vaddr) vaddr = s.read_with (s.resolve_pt vaddr) vaddr ∧
      ∀ value, s.write_with (s.resolve_tlb vaddr) vaddr value =
        s.write_with (s.resolve_pt vaddr) vaddr value) ∧
    (∀ va, (s.read va).1.invariants) ∧
    (∀ va value, (s.write va value).1.invariants) ∧
    (∀ vbase frame, (s.map vbase frame).1.invariants) ∧
    (∀ base, (s.unmap base).invariants) ∧
    (∀ va, (s.query va).1.invariants) ∧
    (∀ base, (s.cache_evict base).invariants) := by
  refine ⟨?_, ?_, ?_, ?_, ?_, ?_, ?_⟩
  · intro b f htlb
    have hpt := resolve_pt_of_tlb s vaddr b f hinv htlb
    refine ⟨hpt, ?_, ?_⟩
    · rw [htlb, hpt]
    · intro value
      rw [htlb, hpt]
  · intro va
    exact ll_read_invariants s va hinv
  · intro va value
    exact ll_write_invariants s va value hinv
  · intro vbase frame
    exact ll_map_invariants s vbase frame hinv
  · intro base
    exact ll_unmap_invariants s base hinv
  · intro va
    exact ll_query_invariants s va hinv
  · intro base
    exact ll_cache_evict_invariants s base hinv

/-- Witness for C7 at a concrete low-level state with a cached mapping. -/
theorem tlb_hit_consistent_and_ops_preserve_witness :
    (∀ b f, sLL.resolve_tlb 1 = some (b, f) →
      sLL.resolve_pt 1 = some (b, f) ∧
      sLL.read_with (sLL.resolve_tlb 1) 1 = sLL.read_with (sLL.resolve_pt 1) 1 ∧
      ∀ value, sLL.write_with (sLL.resolve_tlb 1) 1 value =
        sLL.write_with (sLL.resolve_pt 1) 1 value) ∧
    (∀ va, (sLL.read va).1.invariants) ∧
    (∀ va value, (sLL.write va value).1.invariants) ∧
    (∀ vbase frame, (sLL.map vbase frame).1.invariants) ∧
    (∀ base, (sLL.unmap base).invariants) ∧
    (∀ va, (sLL.query va).1.invariants) ∧
    (∀ base, (sLL.cache_evict base).invariants) :=
  tlb_hit_consistent_and_ops_preserve sLL 1 (by decide)

/-- C8: on an invariant-satisfying tree, `recursive_insert` with a valid
path and a level-valid frame, and `recursive_remove` with a valid path, both
return trees that again satisfy the recursive structural invariant. -/
theorem insert_remove_preserve_tree_invariants (n : PTTreeNode) (p : List Nat)
    (frame : Frame) (hinv : n.invariants = true)
    (hp : PTTreePath.valid p n.constants.arch n.level)
    (hframe : PTTreeNode.is_entry_valid (.frame frame) (n.level + p.length - 1)
      n.constants = true) :
    (n.recursive_insert p frame).1.invariants = true ∧
    (n.recursive_remove p).1.invariants = true :=
  ⟨n_insert_invariants n p frame hinv hp hframe, n_remove_invariants n p hinv hp⟩

/-- Witness for C8 at a concrete two-level tree. -/
theorem insert_remove_preserve_tree_invariants_witness :
    ((PTTreeNode.new cstB 0).recursive_insert [1, 2] frameB).1.invariants = true ∧
    ((PTTreeNode.new cstB 0).recursive_remove [1, 2]).1.invariants = true :=
  insert_remove_preserve_tree_invariants (PTTreeNode.new cstB 0) [1, 2] frameB
    (by decide) (by decide) (by decide)

/-- C9: on an invariant-satisfying node, a valid path longer than one whose
visit reaches a frame before the path is exhausted: `recursive_remove`
succeeds and clears the frame to `Empty` when every remaining index is zero,
and returns `Err` with the tree unchanged when some remaining index is
non-zero. -/
theorem remove_early_frame_zero_tail (n : PTTreeNode) (p : List Nat)
    (hinv : n.invariants = true)
    (hp : PTTreePath.valid p n.constants.arch n.level)
    (hlen : 1 < p.length)
    (hvis : (n.recursive_visit p).length < p.length)
    (hf : ∃ f, (n.recursive_visit p).getLast? = some (.frame f)) :
    ((p.drop (n.recursive_visit p).length).all (· == 0) = true →
      (n.recursive_remove p).2 = .Ok ∧
      ((n.recursive_remove p).1.recursive_visit p).length = (n.recursive_visit p).length ∧
      ((n.recursive_remove p).1.recursive_visit p).getLast? = some .empty) ∧
    ((p.drop (n.recursive_visit p).length).all (· == 0) = false →
      n.recursive_remove p = (n, .Err)) :=
  remove_early_frame n p hlen hvis hf

/-- Witness for C9 at a concrete tree holding a level-0 block mapping. -/
theorem remove_early_frame_zero_tail_witness :
    ((([0, 0] : List Nat).drop (c9tree.recursive_visit [0, 0]).length).all (· == 0) = true →
      (c9tree.recursive_remove [0, 0]).2 = .Ok ∧
      ((c9tree.recursive_remove [0, 0]).1.recursive_visit [0, 0]).length =
        (c9tree.recursive_visit [0, 0]).length ∧
      ((c9tree.recursive_remove [0, 0]).1.recursive_visit [0, 0]).getLast? =
        some .empty) ∧
    ((([0, 0] : List Nat).drop (c9tree.recursive_visit [0, 0]).length).all (· == 0) = false →
      c9tree.recursive_remove [0, 0] = (c9tree, .Err)) :=
  remove_early_frame_zero_tail c9tree [0, 0] (by decide) (by decide) (by decide)
    (by decide) ⟨⟨8, 4, attrRW⟩, rfl⟩

/-- C10: in the high-level map transition, the absence of physical overlap
is an enabling condition of the transition relation, not a checked failure:
any transition implies the new frame does not overlap mapped physical
memory, and an `Err` result occurs only for virtual-range overlap. -/
theorem hl_map_pmem_nonoverlap_is_enabling (s1 s2 : HighLevelState) (vaddr : Nat)
    (frame : Frame) (res : PagingResult)
    (h : HighLevelState.map s1 s2 vaddr frame res) :
    ¬ s1.overlaps_pmem frame ∧ (res = .Err → s1.overlaps_vmem vaddr frame) := by
  refine ⟨h.2.2.1, ?_⟩
  intro hres
  by_cases hov : s1.overlaps_vmem vaddr frame
  · exact hov
  · exfalso
    have := (h.2.2.2.2 hov).1
    rw [hres] at this
    exact absurd this (by simp)

/-- Witness for C10 at a concrete successful map transition. -/
theorem hl_map_pmem_nonoverlap_is_enabling_witness :
    ¬ hlS1.overlaps_pmem hlF ∧ (PagingResult.Ok = .Err → hlS1.overlaps_vmem 0 hlF) := by
  apply hl_map_pmem_nonoverlap_is_enabling hlS1 hlS2 0 hlF .Ok
  refine ⟨by decide, by decide, ?_, ?_, ?_⟩
  · rintro ⟨b, f, hbf, -⟩
    exact absurd hbf (by simp [hlS1])
  · rintro ⟨b, f, hbf, -⟩
    exact absurd hbf (by simp [hlS1])
  · intro hnov
    refine ⟨rfl, rfl, ?_⟩
    intro i
    constructor
    · intro hsome
      by_cases hi : i = 0
      · subst hi
        exact ⟨0, hlF, rfl, by omega, by show (0 : Nat) < 0 + hlF.size; decide⟩
      · exfalso
        have : hlS2.mem i = none := by simp [hlS2, hi]
        rw [this] at hsome
        simp at hsome
    · rintro ⟨base, f, hbf, hle, hlt⟩
      by_cases hb : base = 0
      · subst hb
        have hf : hlF = f := by simpa [hlS2] using hbf
        subst hf
        have hi : i = 0 := by
          have : i * 8 < 4 := by simpa [hlF] using hlt
          omega
        subst hi
        simp [hlS2]
      · exfalso
        have : hlS2.mappings base = none := by simp [hlS2, hb]
        rw [this] at hbf
        simp at hbf
